import Mathlib

/-!
Verification development for the qmd retrieval engine.

Shallow embedding of the store layer of the qmd repository
(internal/store/store.go, internal/store/rrf.go, internal/util/util.go).

Modelling conventions:
* Go strings are modelled as lists of characters (`Str`); each character
  stands for one byte, so byte offsets and `len` agree with list indices
  (the development works with ASCII data, where Go's byte-based indexing
  and character-based indexing coincide).
* Go `float64` values (BM25 ranks, RRF scores, embedding components) are
  modelled as rationals; every arithmetic fact proved here uses only
  additions of reciprocals of small integers, where float and rational
  arithmetic agree.
* Go maps used only for aggregation are modelled as association lists in
  insertion order; Go map iteration order is unspecified, and no theorem
  below depends on the iteration order (only on key/value contents and on
  the final explicit sort).
* SQLite tables are modelled as lists of rows; `INSERT OR IGNORE`,
  upserts and transactional rollback are modelled explicitly.
-/

/-- A Go string, seen as its sequence of (single-byte) characters. -/
abbrev Str := List Char

/-- Model of the Go struct `store.SearchResult` (store.go lines 323-330). -/
structure SearchResult where
  DocID : Int
  Filepath : Str
  Title : Str
  Snippet : Str
  Score : ℚ
  Matches : List Str
deriving DecidableEq

instance : Inhabited SearchResult := ⟨⟨0, [], [], [], 0, []⟩⟩

/-- The RRF damping constant `rrfK = 60.0` (rrf.go line 7). -/
def rrfK : ℚ := 60

/-- The score contribution of one occurrence at 0-based `rank`:
`1.0 / (rrfK + float64(rank+1))` (rrf.go line 23). -/
def rrfContribution (rank : ℕ) : ℚ := 1 / (rrfK + ((rank : ℚ) + 1))

/-- The snippet upgrade performed when a filepath is seen again
(rrf.go lines 29-32): a result without rendered matches takes the
matches and snippet of a later occurrence that has them. -/
def rrfUpgrade (existing incoming : SearchResult) : SearchResult :=
  if existing.Matches = [] ∧ incoming.Matches ≠ [] then
    { existing with Matches := incoming.Matches, Snippet := incoming.Snippet }
  else existing

/-- One step of the aggregation loop of `ReciprocalRankFusion`
(rrf.go lines 20-39): the `scores` map keyed by filepath is modelled as
an association list in insertion order. -/
def rrfAdd (r : SearchResult) (rank : ℕ) :
    List (Str × SearchResult × ℚ) → List (Str × SearchResult × ℚ)
  | [] => [(r.Filepath, r, rrfContribution rank)]
  | e :: rest =>
    if e.1 = r.Filepath then
      (e.1, rrfUpgrade e.2.1 r, e.2.2 + rrfContribution rank) :: rest
    else
      e :: rrfAdd r rank rest

/-- Processing one ranked list: iterate its members with 0-based ranks. -/
def rrfAddList (sc : List (Str × SearchResult × ℚ)) (list : List SearchResult) :
    List (Str × SearchResult × ℚ) :=
  list.enum.foldl (fun acc p => rrfAdd p.2 p.1 acc) sc

/-- Model of `ReciprocalRankFusion` (rrf.go lines 11-56): aggregate the
per-rank contributions per filepath, set each surviving result's score to
its accumulated RRF score, and sort descending by score.  Go's
`sort.Slice` with `Score_i > Score_j` is modelled by a merge sort under
the total relation `b.Score ≤ a.Score`; ties are not broken by either. -/
def ReciprocalRankFusion (resultLists : List (List SearchResult)) : List SearchResult :=
  let scores := resultLists.foldl rrfAddList []
  let fused := scores.map (fun e => { e.2.1 with Score := e.2.2 })
  fused.mergeSort (fun a b => decide (b.Score ≤ a.Score))

/-- Specification-side score of a filepath (claim C1): the sum, over
every (list, rank) at which the filepath appears, of `1/(60 + rank + 1)`. -/
def rrfSpecScore (resultLists : List (List SearchResult)) (fp : Str) : ℚ :=
  (resultLists.map (fun list =>
    ((list.enum.filter (fun p => p.2.Filepath = fp)).map
      (fun p => 1 / (60 + (p.1 : ℚ) + 1))).sum)).sum

/-- The accumulated score stored for a filepath in the aggregation list
(`0` when absent). -/
def scoreOf (scores : List (Str × SearchResult × ℚ)) (fp : Str) : ℚ :=
  match scores.find? (fun e => e.1 = fp) with
  | some e => e.2.2
  | none => 0

/-- The result value stored for a filepath in the aggregation list. -/
def storedOf (scores : List (Str × SearchResult × ℚ)) (fp : Str) : Option SearchResult :=
  (scores.find? (fun e => e.1 = fp)).map (fun e => e.2.1)

/-- Keys of the aggregation list. -/
def keysOf (scores : List (Str × SearchResult × ℚ)) : List Str := scores.map (·.1)

/-- Flattened (rank, result) pairs of a family of lists, in scan order. -/
def rrfPairs (resultLists : List (List SearchResult)) : List (ℕ × SearchResult) :=
  (resultLists.map List.enum).flatten

/-- Specification-side contribution of a flat pair list to a filepath. -/
def specContrib (pairs : List (ℕ × SearchResult)) (fp : Str) : ℚ :=
  ((pairs.filter (fun p => p.2.Filepath = fp)).map (fun p => rrfContribution p.1)).sum

theorem scoreOf_nil (fp : Str) : scoreOf [] fp = 0 := rfl

theorem scoreOf_cons (e : Str × SearchResult × ℚ) (rest : List (Str × SearchResult × ℚ))
    (fp : Str) : scoreOf (e :: rest) fp = if e.1 = fp then e.2.2 else scoreOf rest fp := by
  by_cases h : e.1 = fp
  · simp [scoreOf, List.find?_cons_of_pos, h]
  · simp [scoreOf, List.find?_cons_of_neg, h]

theorem rrfAdd_scoreOf (r : SearchResult) (rank : ℕ) (fp : Str) :
    ∀ sc, scoreOf (rrfAdd r rank sc) fp =
      scoreOf sc fp + (if r.Filepath = fp then rrfContribution rank else 0) := by
  intro sc
  induction sc with
  | nil =>
    by_cases h : r.Filepath = fp <;>
      simp [rrfAdd, scoreOf_cons, scoreOf_nil, h]
  | cons e rest ih =>
    by_cases he : e.1 = r.Filepath
    · by_cases hf : e.1 = fp
      · have hrf : r.Filepath = fp := he.symm.trans hf
        simp [rrfAdd, he, scoreOf_cons, hf, hrf, add_assoc]
      · have hrf : ¬ r.Filepath = fp := fun h => hf (he.trans h)
        simp [rrfAdd, he, scoreOf_cons, hf, hrf]
    · by_cases hf : e.1 = fp
      · have hrf : ¬ r.Filepath = fp := fun h => he (hf.trans h.symm)
        have hfr : ¬ fp = r.Filepath := fun h => hrf h.symm
        simp [rrfAdd, he, scoreOf_cons, hf, hrf, hfr]
      · simp [rrfAdd, he, scoreOf_cons, hf, ih]

theorem rrfFold_scoreOf (fp : Str) :
    ∀ (pairs : List (ℕ × SearchResult)) (sc : List (Str × SearchResult × ℚ)),
      scoreOf (pairs.foldl (fun acc p => rrfAdd p.2 p.1 acc) sc) fp =
        scoreOf sc fp + specContrib pairs fp := by
  intro pairs
  induction pairs with
  | nil => intro sc; simp [specContrib]
  | cons p rest ih =>
    intro sc
    rw [List.foldl_cons, ih, rrfAdd_scoreOf]
    by_cases h : p.2.Filepath = fp
    · simp [specContrib, h]; ring
    · simp [specContrib, h]

/-- The value stored for a key after one more occurrence `r` is applied:
a fresh key stores `r` itself, an existing key is upgraded. -/
def rrfStep (o : Option SearchResult) (r : SearchResult) : SearchResult :=
  match o with
  | none => r
  | some v => rrfUpgrade v r

/-- Folding occurrences into an optional stored value. -/
def upgradeFold (o : Option SearchResult) (ps : List (ℕ × SearchResult)) :
    Option SearchResult :=
  ps.foldl (fun acc p => some (rrfStep acc p.2)) o

/-- Folding the snippet upgrade over a list of later occurrences. -/
def upgradeAll (b : SearchResult) (qs : List SearchResult) : SearchResult :=
  qs.foldl rrfUpgrade b

/-- Occurrences of a filepath across the input lists, in scan order
(lists in argument order, each list in rank order). -/
def occurrencesOf (resultLists : List (List SearchResult)) (fp : Str) :
    List SearchResult :=
  resultLists.flatten.filter (fun r => r.Filepath = fp)

theorem storedOf_nil (fp : Str) : storedOf [] fp = none := rfl

theorem storedOf_cons (e : Str × SearchResult × ℚ) (rest : List (Str × SearchResult × ℚ))
    (fp : Str) :
    storedOf (e :: rest) fp = if e.1 = fp then some e.2.1 else storedOf rest fp := by
  by_cases h : e.1 = fp
  · simp [storedOf, List.find?_cons_of_pos, h]
  · simp [storedOf, List.find?_cons_of_neg, h]

theorem rrfAdd_storedOf (r : SearchResult) (rank : ℕ) (fp : Str) :
    ∀ sc, storedOf (rrfAdd r rank sc) fp =
      if r.Filepath = fp then some (rrfStep (storedOf sc fp) r) else storedOf sc fp := by
  intro sc
  induction sc with
  | nil =>
    by_cases h : r.Filepath = fp <;>
      simp [rrfAdd, storedOf_cons, storedOf_nil, rrfStep, h]
  | cons e rest ih =>
    by_cases he : e.1 = r.Filepath
    · by_cases hf : e.1 = fp
      · have hrf : r.Filepath = fp := he.symm.trans hf
        simp [rrfAdd, he, storedOf_cons, hf, hrf, rrfStep]
      · have hrf : ¬ r.Filepath = fp := fun h => hf (he.trans h)
        simp [rrfAdd, he, storedOf_cons, hf, hrf]
    · by_cases hf : e.1 = fp
      · have hrf : ¬ r.Filepath = fp := fun h => he (hf.trans h.symm)
        have hfr : ¬ fp = r.Filepath := fun h => hrf h.symm
        simp [rrfAdd, he, storedOf_cons, hf, hrf, hfr]
      · simp [rrfAdd, he, storedOf_cons, hf, ih]

theorem rrfFold_storedOf (fp : Str) :
    ∀ (pairs : List (ℕ × SearchResult)) (sc : List (Str × SearchResult × ℚ)),
      storedOf (pairs.foldl (fun acc p => rrfAdd p.2 p.1 acc) sc) fp =
        upgradeFold (storedOf sc fp) (pairs.filter (fun p => p.2.Filepath = fp)) := by
  intro pairs
  induction pairs with
  | nil => intro sc; simp [upgradeFold]
  | cons p rest ih =>
    intro sc
    rw [List.foldl_cons, ih, rrfAdd_storedOf]
    by_cases h : p.2.Filepath = fp
    · simp [h, upgradeFold]
    · simp [h]

theorem upgradeFold_some (v : SearchResult) :
    ∀ ps : List (ℕ × SearchResult),
      upgradeFold (some v) ps = some (upgradeAll v (ps.map (·.2))) := by
  intro ps
  induction ps generalizing v with
  | nil => simp [upgradeFold, upgradeAll]
  | cons p rest ih =>
    simp only [upgradeFold, List.foldl_cons, rrfStep] at ih ⊢
    rw [ih]
    simp [upgradeAll]

theorem upgradeAll_fields (qs : List SearchResult) :
    ∀ b : SearchResult,
      (upgradeAll b qs).DocID = b.DocID ∧ (upgradeAll b qs).Filepath = b.Filepath ∧
      (upgradeAll b qs).Title = b.Title ∧ (upgradeAll b qs).Score = b.Score := by
  induction qs with
  | nil => intro b; simp [upgradeAll]
  | cons q rest ih =>
    intro b
    have h := ih (rrfUpgrade b q)
    simp only [upgradeAll, List.foldl_cons] at h ⊢
    refine h.imp (fun h1 => ?_) (fun h2 => h2.imp (fun h1 => ?_) (fun h2 => h2.imp (fun h1 => ?_) (fun h1 => ?_))) <;>
      rw [h1] <;> unfold rrfUpgrade <;> split <;> rfl

theorem upgradeAll_of_nonempty (qs : List SearchResult) :
    ∀ b : SearchResult, b.Matches ≠ [] → upgradeAll b qs = b := by
  induction qs with
  | nil => intro b _; rfl
  | cons q rest ih =>
    intro b hb
    have hstep : rrfUpgrade b q = b := by
      unfold rrfUpgrade
      simp [hb]
    simp only [upgradeAll, List.foldl_cons, hstep]
    exact ih b hb

theorem upgradeAll_of_empty (qs : List SearchResult) :
    ∀ b : SearchResult, b.Matches = [] →
      (∀ q, qs.find? (fun q => !q.Matches.isEmpty) = some q →
        (upgradeAll b qs).Matches = q.Matches ∧ (upgradeAll b qs).Snippet = q.Snippet) ∧
      (qs.find? (fun q => !q.Matches.isEmpty) = none →
        (upgradeAll b qs).Matches = [] ∧ (upgradeAll b qs).Snippet = b.Snippet) := by
  induction qs with
  | nil => intro b hb; simp [upgradeAll, hb]
  | cons q rest ih =>
    intro b hb
    by_cases hq : q.Matches = []
    · have hstep : rrfUpgrade b q = b := by
        unfold rrfUpgrade
        simp [hq]
      have hfind : (q :: rest).find? (fun q => !q.Matches.isEmpty) =
          rest.find? (fun q => !q.Matches.isEmpty) := by
        rw [List.find?_cons_of_neg]
        simp [hq]
      constructor
      · intro q' hq'
        rw [hfind] at hq'
        have := (ih b hb).1 q' hq'
        simpa [upgradeAll, hstep] using this
      · intro hnone
        rw [hfind] at hnone
        have := (ih b hb).2 hnone
        simpa [upgradeAll, hstep] using this
    · have hstep : rrfUpgrade b q =
          { b with Matches := q.Matches, Snippet := q.Snippet } := by
        unfold rrfUpgrade
        simp [hb, hq]
      have hrest : upgradeAll { b with Matches := q.Matches, Snippet := q.Snippet } rest =
          { b with Matches := q.Matches, Snippet := q.Snippet } :=
        upgradeAll_of_nonempty rest _ (by simpa using hq)
      have hfind : (q :: rest).find? (fun q => !q.Matches.isEmpty) = some q := by
        rw [List.find?_cons_of_pos]
        simp [hq]
      constructor
      · intro q' hq'
        rw [hfind] at hq'
        cases hq'
        simp [upgradeAll, List.foldl_cons, hstep]
        rw [show rest.foldl rrfUpgrade { b with Matches := q.Matches, Snippet := q.Snippet } =
            upgradeAll { b with Matches := q.Matches, Snippet := q.Snippet } rest from rfl, hrest]
        simp
      · intro hnone
        rw [hfind] at hnone
        cases hnone

theorem rrfAdd_keysOf (r : SearchResult) (rank : ℕ) :
    ∀ sc, keysOf (rrfAdd r rank sc) =
      if r.Filepath ∈ keysOf sc then keysOf sc else keysOf sc ++ [r.Filepath] := by
  intro sc
  induction sc with
  | nil => simp [rrfAdd, keysOf]
  | cons e rest ih =>
    by_cases he : e.1 = r.Filepath
    · have hmem : r.Filepath ∈ keysOf (e :: rest) := by
        rw [show keysOf (e :: rest) = e.1 :: keysOf rest from rfl, he]
        exact List.mem_cons_self _ _
      rw [if_pos hmem]
      simp only [rrfAdd]
      rw [if_pos he]
      rfl
    · have hne : ¬ r.Filepath = e.1 := fun h => he h.symm
      have heq : keysOf (rrfAdd r rank (e :: rest)) = e.1 :: keysOf (rrfAdd r rank rest) := by
        simp only [rrfAdd]
        rw [if_neg he]
        rfl
      rw [heq, ih]
      by_cases hmem : r.Filepath ∈ keysOf rest
      · have hmem' : r.Filepath ∈ keysOf (e :: rest) := by
          rw [show keysOf (e :: rest) = e.1 :: keysOf rest from rfl]
          exact List.mem_cons_of_mem _ hmem
        rw [if_pos hmem, if_pos hmem']
        rfl
      · have hmem' : r.Filepath ∉ keysOf (e :: rest) := by
          intro h
          rw [show keysOf (e :: rest) = e.1 :: keysOf rest from rfl] at h
          rcases List.mem_cons.mp h with h1 | h1
          · exact hne h1
          · exact hmem h1
        rw [if_neg hmem, if_neg hmem']
        rfl

theorem rrfAdd_nodup (r : SearchResult) (rank : ℕ) (sc : List (Str × SearchResult × ℚ))
    (h : (keysOf sc).Nodup) : (keysOf (rrfAdd r rank sc)).Nodup := by
  rw [rrfAdd_keysOf]
  by_cases hmem : r.Filepath ∈ keysOf sc
  · simpa [hmem] using h
  · rw [if_neg hmem]
    refine List.Nodup.append h (List.nodup_singleton _) ?_
    intro x hx hx'
    rw [List.mem_singleton] at hx'
    exact hmem (hx' ▸ hx)

theorem rrfAdd_mem_keysOf (r : SearchResult) (rank : ℕ) (sc : List (Str × SearchResult × ℚ))
    (fp : Str) : fp ∈ keysOf (rrfAdd r rank sc) ↔ fp ∈ keysOf sc ∨ fp = r.Filepath := by
  rw [rrfAdd_keysOf]
  by_cases hmem : r.Filepath ∈ keysOf sc
  · rw [if_pos hmem]
    constructor
    · exact Or.inl
    · rintro (h | h)
      · exact h
      · exact h ▸ hmem
  · rw [if_neg hmem]
    simp

theorem rrfFold_nodup :
    ∀ (pairs : List (ℕ × SearchResult)) (sc : List (Str × SearchResult × ℚ)),
      (keysOf sc).Nodup → (keysOf (pairs.foldl (fun acc p => rrfAdd p.2 p.1 acc) sc)).Nodup := by
  intro pairs
  induction pairs with
  | nil => intro sc h; simpa using h
  | cons p rest ih =>
    intro sc h
    rw [List.foldl_cons]
    exact ih _ (rrfAdd_nodup _ _ _ h)

theorem rrfFold_mem_keysOf :
    ∀ (pairs : List (ℕ × SearchResult)) (sc : List (Str × SearchResult × ℚ)) (fp : Str),
      fp ∈ keysOf (pairs.foldl (fun acc p => rrfAdd p.2 p.1 acc) sc) ↔
        fp ∈ keysOf sc ∨ ∃ p ∈ pairs, p.2.Filepath = fp := by
  intro pairs
  induction pairs with
  | nil => intro sc fp; simp
  | cons p rest ih =>
    intro sc fp
    rw [List.foldl_cons, ih, rrfAdd_mem_keysOf]
    constructor
    · rintro ((h | h) | ⟨q, hq, hfp⟩)
      · exact Or.inl h
      · exact Or.inr ⟨p, List.mem_cons_self _ _, h.symm⟩
      · exact Or.inr ⟨q, List.mem_cons_of_mem _ hq, hfp⟩
    · rintro (h | ⟨q, hq, hfp⟩)
      · exact Or.inl (Or.inl h)
      · rcases List.mem_cons.mp hq with h1 | h1
        · exact Or.inl (Or.inr (h1 ▸ hfp.symm))
        · exact Or.inr ⟨q, h1, hfp⟩

theorem find?_key_of_mem :
    ∀ (scores : List (Str × SearchResult × ℚ)) (e : Str × SearchResult × ℚ),
      (keysOf scores).Nodup → e ∈ scores →
      scores.find? (fun x => x.1 = e.1) = some e := by
  intro scores
  induction scores with
  | nil => intro e _ he; cases he
  | cons x rest ih =>
    intro e hnodup he
    have hx : x.1 ∉ keysOf rest := (List.nodup_cons.mp hnodup).1
    have hrest : (keysOf rest).Nodup := (List.nodup_cons.mp hnodup).2
    rcases List.mem_cons.mp he with h1 | h1
    · subst h1
      rw [List.find?_cons_of_pos]
      simp
    · have hne : ¬ x.1 = e.1 := by
        intro h
        exact hx (h ▸ List.mem_map_of_mem (·.1) h1)
      rw [List.find?_cons_of_neg]
      · exact ih e hrest h1
      · simp [hne]

theorem foldl_rrfAddList_eq :
    ∀ (resultLists : List (List SearchResult)) (sc : List (Str × SearchResult × ℚ)),
      resultLists.foldl rrfAddList sc =
        (rrfPairs resultLists).foldl (fun acc p => rrfAdd p.2 p.1 acc) sc := by
  intro resultLists
  induction resultLists with
  | nil => intro sc; simp [rrfPairs]
  | cons l ls ih =>
    intro sc
    rw [List.foldl_cons]
    have h1 : rrfPairs (l :: ls) = l.enum ++ rrfPairs ls := by
      simp [rrfPairs]
    rw [h1, List.foldl_append, ih]
    rfl

theorem specContrib_append (a b : List (ℕ × SearchResult)) (fp : Str) :
    specContrib (a ++ b) fp = specContrib a fp + specContrib b fp := by
  simp [specContrib, List.filter_append]

theorem rrfSpecScore_eq (resultLists : List (List SearchResult)) (fp : Str) :
    rrfSpecScore resultLists fp = specContrib (rrfPairs resultLists) fp := by
  induction resultLists with
  | nil => simp [rrfSpecScore, rrfPairs, specContrib]
  | cons l ls ih =>
    have h1 : rrfPairs (l :: ls) = l.enum ++ rrfPairs ls := by simp [rrfPairs]
    rw [h1, specContrib_append, ← ih]
    simp only [rrfSpecScore, List.map_cons, List.sum_cons]
    congr 1
    simp only [specContrib]
    refine congrArg List.sum (List.map_congr_left ?_)
    intro p _
    simp [rrfContribution, rrfK, add_assoc]

theorem rrfPairs_map_snd (resultLists : List (List SearchResult)) :
    (rrfPairs resultLists).map (·.2) = resultLists.flatten := by
  simp only [rrfPairs, List.map_flatten, List.map_map]
  have h : ∀ l ∈ resultLists, ((List.map fun x : ℕ × SearchResult => x.2) ∘ List.enum) l = id l := by
    intro l _
    simp only [Function.comp, id]
    exact List.enum_map_snd l
  rw [List.map_congr_left h, List.map_id]

theorem occurrencesOf_eq (resultLists : List (List SearchResult)) (fp : Str) :
    occurrencesOf resultLists fp =
      ((rrfPairs resultLists).filter (fun p => p.2.Filepath = fp)).map (·.2) := by
  rw [occurrencesOf, ← rrfPairs_map_snd, List.filter_map]
  rfl

theorem upgradeFold_none_cons (q : ℕ × SearchResult) (rest : List (ℕ × SearchResult)) :
    upgradeFold none (q :: rest) = some (upgradeAll q.2 (rest.map (·.2))) := by
  show upgradeFold (some (rrfStep none q.2)) rest = _
  rw [upgradeFold_some]
  rfl

theorem rrfScores_nodup (resultLists : List (List SearchResult)) :
    (keysOf (resultLists.foldl rrfAddList [])).Nodup := by
  rw [foldl_rrfAddList_eq]
  exact rrfFold_nodup _ _ (by simp [keysOf])

theorem rrfScores_storedOf (resultLists : List (List SearchResult)) (fp : Str) :
    storedOf (resultLists.foldl rrfAddList []) fp =
      upgradeFold none ((rrfPairs resultLists).filter (fun p => p.2.Filepath = fp)) := by
  rw [foldl_rrfAddList_eq, rrfFold_storedOf, storedOf_nil]

theorem rrfScores_scoreOf (resultLists : List (List SearchResult)) (fp : Str) :
    scoreOf (resultLists.foldl rrfAddList []) fp = rrfSpecScore resultLists fp := by
  rw [foldl_rrfAddList_eq, rrfFold_scoreOf, scoreOf_nil, rrfSpecScore_eq, zero_add]

theorem rrfScores_entry (resultLists : List (List SearchResult))
    (e : Str × SearchResult × ℚ) (he : e ∈ resultLists.foldl rrfAddList []) :
    ∃ b qs, occurrencesOf resultLists e.1 = b :: qs ∧ e.2.1 = upgradeAll b qs ∧
      e.1 = e.2.1.Filepath ∧ e.2.2 = rrfSpecScore resultLists e.1 := by
  have hnodup := rrfScores_nodup resultLists
  have hfind := find?_key_of_mem _ e hnodup he
  have hstored : storedOf (resultLists.foldl rrfAddList []) e.1 = some e.2.1 := by
    simp [storedOf, hfind]
  have hscoreOf : scoreOf (resultLists.foldl rrfAddList []) e.1 = e.2.2 := by
    simp [scoreOf, hfind]
  rw [rrfScores_storedOf] at hstored
  cases hfilt : (rrfPairs resultLists).filter (fun p => p.2.Filepath = e.1) with
  | nil =>
    rw [hfilt] at hstored
    simp [upgradeFold] at hstored
  | cons q rest =>
    rw [hfilt, upgradeFold_none_cons] at hstored
    have hval : e.2.1 = upgradeAll q.2 (rest.map (·.2)) := (Option.some_inj.mp hstored).symm
    have hocc : occurrencesOf resultLists e.1 = q.2 :: rest.map (·.2) := by
      rw [occurrencesOf_eq, hfilt]
      rfl
    have hqmem : q ∈ (rrfPairs resultLists).filter (fun p => p.2.Filepath = e.1) := by
      rw [hfilt]
      exact List.mem_cons_self _ _
    have hq : q.2.Filepath = e.1 := by
      have := (List.mem_filter.mp hqmem).2
      simpa using this
    have hfp : e.1 = e.2.1.Filepath := by
      rw [hval, (upgradeAll_fields (rest.map (·.2)) q.2).2.1, hq]
    refine ⟨q.2, rest.map (·.2), hocc, hval, hfp, ?_⟩
    rw [← rrfScores_scoreOf resultLists e.1, hscoreOf]

/-- Example input for claim C1's concrete docX/docY scenario. -/
def docX : SearchResult := ⟨0, ['x'], [], [], 0, []⟩

/-- Example input for claim C1's concrete docX/docY scenario. -/
def docY : SearchResult := ⟨1, ['y'], [], [], 0, []⟩

/-- The two symmetric ranked lists A = [docX, docY] and B = [docY, docX]. -/
def rrfExampleLists : List (List SearchResult) := [[docX, docY], [docY, docX]]

/-- Evaluation of the fusion on a single one-element list; shared by
concrete instantiations below. -/
theorem rrf_single_eval :
    ReciprocalRankFusion [[docX]] = [{ docX with Score := rrfContribution 0 }] := by
  simp [ReciprocalRankFusion, rrfAddList, rrfAdd, List.enum, List.enumFrom, List.mergeSort]

/-- C1: ReciprocalRankFusion assigns each distinct filepath the final score
equal to the sum of 1/(60 + rank + 1) over every (list, rank) at which it
appears, and returns the fused list sorted in descending score order; in
the symmetric docX/docY example the two scores are 1/61 + 1/62 and
1/62 + 1/61, which are equal. -/
theorem rrf_c1 :
    (∀ resultLists,
      (∀ r ∈ ReciprocalRankFusion resultLists,
        r.Score = rrfSpecScore resultLists r.Filepath) ∧
      List.Sorted (fun a b : SearchResult => b.Score ≤ a.Score)
        (ReciprocalRankFusion resultLists)) ∧
    rrfSpecScore rrfExampleLists docX.Filepath = 1 / 61 + 1 / 62 ∧
    rrfSpecScore rrfExampleLists docY.Filepath = 1 / 62 + 1 / 61 ∧
    rrfSpecScore rrfExampleLists docX.Filepath =
      rrfSpecScore rrfExampleLists docY.Filepath := by
  refine ⟨fun resultLists => ⟨?_, ?_⟩, ?_, ?_, ?_⟩
  · intro r hr
    simp only [ReciprocalRankFusion] at hr
    have hperm := List.mergeSort_perm
      ((resultLists.foldl rrfAddList []).map
        (fun e => ({ e.2.1 with Score := e.2.2 } : SearchResult)))
      (fun a b => decide (b.Score ≤ a.Score))
    have hr' := hperm.mem_iff.mp hr
    obtain ⟨e, he, rfl⟩ := List.mem_map.mp hr'
    obtain ⟨b, qs, hocc, hval, hfp, hscore⟩ := rrfScores_entry resultLists e he
    show e.2.2 = rrfSpecScore resultLists ({ e.2.1 with Score := e.2.2 } : SearchResult).Filepath
    have h2 : ({ e.2.1 with Score := e.2.2 } : SearchResult).Filepath = e.2.1.Filepath := rfl
    rw [h2, ← hfp]
    exact hscore
  · have htrans : ∀ a b c : SearchResult,
        (decide (b.Score ≤ a.Score)) = true → (decide (c.Score ≤ b.Score)) = true →
        (decide (c.Score ≤ a.Score)) = true := by
      intro a b c hab hbc
      rw [decide_eq_true_eq] at hab hbc ⊢
      exact le_trans hbc hab
    have htotal : ∀ a b : SearchResult,
        ((decide (b.Score ≤ a.Score)) || (decide (a.Score ≤ b.Score))) = true := by
      intro a b
      rcases le_total a.Score b.Score with h | h <;> simp [h]
    have hs := List.sorted_mergeSort htrans htotal
      ((resultLists.foldl rrfAddList []).map
        (fun e => ({ e.2.1 with Score := e.2.2 } : SearchResult)))
    show List.Sorted _ (ReciprocalRankFusion resultLists)
    simp only [ReciprocalRankFusion]
    exact hs.imp (fun h => by rwa [decide_eq_true_eq] at h)
  · have hyx : ¬ (['y'] : Str) = ['x'] := by decide
    norm_num [rrfSpecScore, rrfExampleLists, docX, docY, List.enum, List.enumFrom,
      List.filter_cons, hyx]
  · have hxy : ¬ (['x'] : Str) = ['y'] := by decide
    norm_num [rrfSpecScore, rrfExampleLists, docX, docY, List.enum, List.enumFrom,
      List.filter_cons, hxy]
  · have hyx : ¬ (['y'] : Str) = ['x'] := by decide
    have hxy : ¬ (['x'] : Str) = ['y'] := by decide
    norm_num [rrfSpecScore, rrfExampleLists, docX, docY, List.enum, List.enumFrom,
      List.filter_cons, hyx, hxy]

/-- Witness for C1: concrete instantiation at the one-element family. -/
theorem rrf_c1_witness :
    ({ docX with Score := rrfContribution 0 } : SearchResult).Score =
      rrfSpecScore [[docX]]
        ({ docX with Score := rrfContribution 0 } : SearchResult).Filepath := by
  refine (rrf_c1.1 [[docX]]).1 _ ?_
  rw [rrf_single_eval]
  exact List.mem_singleton.mpr rfl

theorem rrfFused_map_filepath (resultLists : List (List SearchResult)) :
    ((resultLists.foldl rrfAddList []).map
        (fun e => ({ e.2.1 with Score := e.2.2 } : SearchResult))).map (·.Filepath) =
      keysOf (resultLists.foldl rrfAddList []) := by
  rw [List.map_map]
  refine List.map_congr_left ?_
  intro e he
  obtain ⟨b, qs, _, _, hfp, _⟩ := rrfScores_entry resultLists e he
  exact hfp.symm

/-- C10: the fused output has exactly one result per distinct input
filepath (none dropped, none duplicated, none invented), and each result
carries the metadata of the filepath's first occurrence in scan order,
except that an empty match list is upgraded from the first later
occurrence that has rendered matches. -/
theorem rrf_c10 : ∀ resultLists : List (List SearchResult),
    ((ReciprocalRankFusion resultLists).map (·.Filepath)).Nodup
    ∧ (∀ fp, (∃ r ∈ ReciprocalRankFusion resultLists, r.Filepath = fp) ↔
        ∃ l ∈ resultLists, ∃ r ∈ l, r.Filepath = fp)
    ∧ (∀ r ∈ ReciprocalRankFusion resultLists,
        ∃ b qs, occurrencesOf resultLists r.Filepath = b :: qs
          ∧ r.DocID = b.DocID ∧ r.Title = b.Title
          ∧ (b.Matches ≠ [] → r.Matches = b.Matches ∧ r.Snippet = b.Snippet)
          ∧ (∀ q, b.Matches = [] → qs.find? (fun q => !q.Matches.isEmpty) = some q →
              r.Matches = q.Matches ∧ r.Snippet = q.Snippet)
          ∧ (b.Matches = [] → qs.find? (fun q => !q.Matches.isEmpty) = none →
              r.Matches = [] ∧ r.Snippet = b.Snippet)) := by
  intro resultLists
  have hperm := List.mergeSort_perm
    ((resultLists.foldl rrfAddList []).map
      (fun e => ({ e.2.1 with Score := e.2.2 } : SearchResult)))
    (fun a b => decide (b.Score ≤ a.Score))
  refine ⟨?_, ?_, ?_⟩
  · have hnodup : (((resultLists.foldl rrfAddList []).map
        (fun e => ({ e.2.1 with Score := e.2.2 } : SearchResult))).map (·.Filepath)).Nodup := by
      rw [rrfFused_map_filepath]
      exact rrfScores_nodup resultLists
    have hp : ((ReciprocalRankFusion resultLists).map (·.Filepath)).Perm
        (((resultLists.foldl rrfAddList []).map
          (fun e => ({ e.2.1 with Score := e.2.2 } : SearchResult))).map (·.Filepath)) := by
      simp only [ReciprocalRankFusion]
      exact hperm.map (·.Filepath)
    exact hp.nodup_iff.mpr hnodup
  · intro fp
    have hmem : (∃ r ∈ ReciprocalRankFusion resultLists, r.Filepath = fp) ↔
        fp ∈ keysOf (resultLists.foldl rrfAddList []) := by
      rw [← rrfFused_map_filepath]
      constructor
      · rintro ⟨r, hr, rfl⟩
        simp only [ReciprocalRankFusion] at hr
        exact List.mem_map_of_mem _ (hperm.mem_iff.mp hr)
      · intro h
        obtain ⟨r, hr, rfl⟩ := List.mem_map.mp h
        refine ⟨r, ?_, rfl⟩
        show r ∈ ReciprocalRankFusion resultLists
        simp only [ReciprocalRankFusion]
        exact hperm.mem_iff.mpr hr
    rw [hmem, foldl_rrfAddList_eq, rrfFold_mem_keysOf]
    have hkeys : (fp ∈ keysOf [] ∨ ∃ p ∈ rrfPairs resultLists, p.2.Filepath = fp) ↔
        ∃ r ∈ resultLists.flatten, r.Filepath = fp := by
      simp only [keysOf, List.map_nil, List.not_mem_nil, false_or]
      constructor
      · rintro ⟨p, hp, hfp⟩
        exact ⟨p.2, by rw [← rrfPairs_map_snd]; exact List.mem_map_of_mem _ hp, hfp⟩
      · rintro ⟨r, hr, rfl⟩
        rw [← rrfPairs_map_snd] at hr
        obtain ⟨p, hp, rfl⟩ := List.mem_map.mp hr
        exact ⟨p, hp, rfl⟩
    rw [hkeys]
    constructor
    · rintro ⟨r, hr, rfl⟩
      obtain ⟨l, hl, hrl⟩ := List.mem_flatten.mp hr
      exact ⟨l, hl, r, hrl, rfl⟩
    · rintro ⟨l, hl, r, hrl, rfl⟩
      exact ⟨r, List.mem_flatten.mpr ⟨l, hl, hrl⟩, rfl⟩
  · intro r hr
    simp only [ReciprocalRankFusion] at hr
    have hr' := hperm.mem_iff.mp hr
    obtain ⟨e, he, rfl⟩ := List.mem_map.mp hr'
    obtain ⟨b, qs, hocc, hval, hfp, _⟩ := rrfScores_entry resultLists e he
    have hFilepath : ({ e.2.1 with Score := e.2.2 } : SearchResult).Filepath =
        e.2.1.Filepath := rfl
    refine ⟨b, qs, ?_, ?_, ?_, ?_, ?_, ?_⟩
    · rw [hFilepath, ← hfp]
      exact hocc
    · show ({ e.2.1 with Score := e.2.2 } : SearchResult).DocID = b.DocID
      have : ({ e.2.1 with Score := e.2.2 } : SearchResult).DocID = e.2.1.DocID := rfl
      rw [this, hval]
      exact (upgradeAll_fields qs b).1
    · show ({ e.2.1 with Score := e.2.2 } : SearchResult).Title = b.Title
      have : ({ e.2.1 with Score := e.2.2 } : SearchResult).Title = e.2.1.Title := rfl
      rw [this, hval]
      exact (upgradeAll_fields qs b).2.2.1
    · intro hb
      have hMatches : ({ e.2.1 with Score := e.2.2 } : SearchResult).Matches =
          e.2.1.Matches := rfl
      have hSnippet : ({ e.2.1 with Score := e.2.2 } : SearchResult).Snippet =
          e.2.1.Snippet := rfl
      rw [hMatches, hSnippet, hval, upgradeAll_of_nonempty qs b hb]
      exact ⟨rfl, rfl⟩
    · intro q hb hfind
      have hMatches : ({ e.2.1 with Score := e.2.2 } : SearchResult).Matches =
          e.2.1.Matches := rfl
      have hSnippet : ({ e.2.1 with Score := e.2.2 } : SearchResult).Snippet =
          e.2.1.Snippet := rfl
      rw [hMatches, hSnippet, hval]
      exact (upgradeAll_of_empty qs b hb).1 q hfind
    · intro hb hfind
      have hMatches : ({ e.2.1 with Score := e.2.2 } : SearchResult).Matches =
          e.2.1.Matches := rfl
      have hSnippet : ({ e.2.1 with Score := e.2.2 } : SearchResult).Snippet =
          e.2.1.Snippet := rfl
      rw [hMatches, hSnippet, hval]
      exact (upgradeAll_of_empty qs b hb).2 hfind

/-- Witness for C10: concrete instantiation at the one-element family. -/
theorem rrf_c10_witness :
    ∃ b qs, occurrencesOf [[docX]]
        ({ docX with Score := rrfContribution 0 } : SearchResult).Filepath = b :: qs ∧
      ({ docX with Score := rrfContribution 0 } : SearchResult).DocID = b.DocID := by
  obtain ⟨b, qs, h1, h2, _⟩ := (rrf_c10 [[docX]]).2.2 _
    (by rw [rrf_single_eval]; exact List.mem_singleton.mpr rfl)
  exact ⟨b, qs, h1, h2⟩

/-- Go `strings.ToLower`, character-wise (util of SearchFTS offsets). -/
def toLowerStr (s : Str) : Str := s.map Char.toLower

/-- The ASCII portion of Go's `unicode.IsSpace`, as used by
`strings.TrimSpace`. -/
def isGoSpace (c : Char) : Bool :=
  c = ' ' || c = '\t' || c = '\n' || c = '\x0B' || c = '\x0C' || c = '\r'

/-- Go `strings.TrimSpace`. -/
def goTrimSpace (s : Str) : Str :=
  ((s.dropWhile isGoSpace).reverse.dropWhile isGoSpace).reverse

/-- Go `strings.Index`: position of the first occurrence of `pat`, if any. -/
def strIndex : Str → Str → Option ℕ
  | [], pat => if pat = [] then some 0 else none
  | c :: rest, pat =>
    if pat.isPrefixOf (c :: rest) then some 0
    else (strIndex rest pat).map (· + 1)

theorem strIndex_bound :
    ∀ (s pat : Str) (pos : ℕ), pat ≠ [] → strIndex s pat = some pos →
      pos + pat.length ≤ s.length := by
  intro s
  induction s with
  | nil =>
    intro pat pos hpat h
    simp [strIndex, hpat] at h
  | cons c rest ih =>
    intro pat pos hpat h
    simp only [strIndex] at h
    by_cases hp : pat.isPrefixOf (c :: rest)
    · rw [if_pos hp] at h
      cases h
      have := List.IsPrefix.length_le (List.isPrefixOf_iff_prefix.mp hp)
      simpa using this
    · rw [if_neg hp] at h
      obtain ⟨p', hp', rfl⟩ := Option.map_eq_some'.mp h
      have := ih pat p' hpat hp'
      simp only [List.length_cons]
      omega

theorem strIndex_some_prefix :
    ∀ (s pat : Str) (pos : ℕ), strIndex s pat = some pos →
      pat.isPrefixOf (s.drop pos) = true ∧
      ∀ j < pos, pat.isPrefixOf (s.drop j) = false := by
  intro s
  induction s with
  | nil =>
    intro pat pos h
    by_cases hpat : pat = []
    · subst hpat
      simp [strIndex] at h
      subst h
      simp [List.isPrefixOf]
    · simp [strIndex, hpat] at h
  | cons c rest ih =>
    intro pat pos h
    simp only [strIndex] at h
    by_cases hp : pat.isPrefixOf (c :: rest)
    · rw [if_pos hp] at h
      cases h
      exact ⟨by simpa using hp, fun j hj => absurd hj (Nat.not_lt_zero j)⟩
    · rw [if_neg hp] at h
      obtain ⟨p', hp', rfl⟩ := Option.map_eq_some'.mp h
      obtain ⟨h1, h2⟩ := ih pat p' hp'
      refine ⟨by simpa using h1, ?_⟩
      intro j hj
      cases j with
      | zero => simpa using Bool.of_not_eq_true hp ▸ (by simp [hp])
      | succ j' =>
        have := h2 j' (by omega)
        simpa using this

theorem strIndex_none_prefix :
    ∀ (s pat : Str), strIndex s pat = none →
      ∀ j, pat.isPrefixOf (s.drop j) = false := by
  intro s
  induction s with
  | nil =>
    intro pat h j
    by_cases hpat : pat = []
    · simp [strIndex, hpat] at h
    · cases pat with
      | nil => exact absurd rfl hpat
      | cons a l => simp [List.isPrefixOf]
  | cons c rest ih =>
    intro pat h j
    simp only [strIndex] at h
    by_cases hp : pat.isPrefixOf (c :: rest)
    · rw [if_pos hp] at h
      cases h
    · rw [if_neg hp] at h
      have hrest : strIndex rest pat = none := by
        cases hh : strIndex rest pat with
        | none => rfl
        | some p' => rw [hh] at h; simp at h
      cases j with
      | zero => simpa using Bool.eq_false_iff.mpr hp
      | succ j' => simpa using ih pat hrest j'

/-- The search loop of `extractOffsetsFromBody` (store.go lines 399-411):
repeatedly find the next occurrence starting at `idx` and advance just
past its start.  The Go code only reaches this loop with a nonempty
pattern (the function returns early on an empty cleaned query); the
empty-pattern guard below is never taken on those inputs. -/
def occLoop (s pat : Str) (idx : ℕ) : List ℕ :=
  match h : strIndex (s.drop idx) pat with
  | none => []
  | some pos =>
    if hp : pat = [] then []
    else (idx + pos) :: occLoop s pat (idx + pos + 1)
termination_by s.length + 1 - idx
decreasing_by
  have hb := strIndex_bound (s.drop idx) pat pos hp h
  have hlen : (s.drop idx).length = s.length - idx := by simp
  have hpl : 1 ≤ pat.length := by
    cases pat with
    | nil => exact absurd rfl hp
    | cons a l => simp
  omega

/-- Model of `extractOffsetsFromBody` (store.go lines 387-414).  The
returned offsets string is modelled as the list of its whitespace
separated numeric fields: each occurrence contributes the four fields
`2 0 byteOffset size` (column 2 = body, term 0, size = `len(query)` of
the original query argument). -/
def extractOffsetsFromBody (body query : Str) : List ℕ :=
  let cleanQuery := goTrimSpace (toLowerStr query)
  if cleanQuery = [] then []
  else
    let bodyLower := toLowerStr body
    let queryLower := toLowerStr cleanQuery
    (occLoop bodyLower queryLower 0).flatMap (fun pos => [2, 0, pos, query.length])

/-- The parsing loop at the head of `extractMatches` (store.go lines
424-436): read the offset fields in strides of four, keep the spans in
column 2, and stop after the first span when `findAll` is false.  A
trailing group of fewer than four fields is dropped (the Go code would
index out of range there; the offsets produced by
`extractOffsetsFromBody` always come in complete groups of four). -/
def parseMatchSpans : List ℕ → Bool → List (ℕ × ℕ)
  | col :: _ :: off :: size :: rest, findAll =>
    if col ≠ 2 then parseMatchSpans rest findAll
    else if findAll then (off, off + size) :: parseMatchSpans rest findAll
    else [(off, off + size)]
  | _, _ => []

/-- Go `strings.Split(body, "\n")` (store.go line 442). -/
def splitLines : Str → List Str
  | [] => [[]]
  | c :: rest =>
    if c = '\n' then [] :: splitLines rest
    else
      match splitLines rest with
      | l :: ls => (c :: l) :: ls
      | [] => [[c]]

/-- The cumulative line start offsets (store.go lines 443-449): entry `i`
is the byte offset of line `i`, counting one byte for each terminator;
one extra final entry holds the total. -/
def lineOffsets : List Str → List ℕ
  | [] => [0]
  | l :: ls => 0 :: (lineOffsets ls).map (· + (l.length + 1))

/-- The line search loop of `extractMatches` (store.go lines 454-460):
find the first index `i` with `offsets[i] <= start < offsets[i+1]`. -/
def findLineIdxAux : List ℕ → ℕ → ℕ → Option ℕ
  | a :: b :: rest, start, i =>
    if a ≤ start ∧ start < b then some i
    else findLineIdxAux (b :: rest) start (i + 1)
  | _, _, _ => none

/-- The matched line index, defaulting to 0 when no interval contains the
offset (store.go line 454 initialises `lineIdx := 0`). -/
def findLineIdx (offs : List ℕ) (start : ℕ) : ℕ :=
  (findLineIdxAux offs start 0).getD 0

/-- Go `strings.TrimRight(s, "\n")`. -/
def trimRightNewlines (s : Str) : Str :=
  (s.reverse.dropWhile (fun c => c = '\n')).reverse

/-- The window rendering loop of `extractMatches` (store.go lines
468-476): each line from `startLine` to `endLine` inclusive is prefixed
with an arrow marker when it is the matched line and three spaces
otherwise, each followed by a newline, and the final newline trimmed. -/
def renderWindow (lines : List Str) (lineIdx startLine endLine : ℕ) : Str :=
  trimRightNewlines
    (((List.range' startLine (endLine + 1 - startLine)).map (fun i =>
      (if i = lineIdx then "-> ".toList else "   ".toList) ++ lines.getD i [] ++ ['\n'])).flatten)

/-- Model of `extractMatches` (store.go lines 416-480). -/
def extractMatches (body : Str) (parts : List ℕ) (n : ℕ) (findAll : Bool) : List Str :=
  let spans := parseMatchSpans parts findAll
  if spans = [] then []
  else
    let lines := splitLines body
    let offs := lineOffsets lines
    spans.map (fun sp =>
      let lineIdx := findLineIdx offs sp.1
      let startLine := lineIdx - n
      let endLine := min (lineIdx + n) (lines.length - 1)
      renderWindow lines lineIdx startLine endLine)

/-- Specification-side occurrence positions (claim C6): every position of
the body at which the lowered, trimmed query occurs in the lowered body,
in increasing order. -/
def specOccs (body query : Str) : List ℕ :=
  let cleanQuery := goTrimSpace (toLowerStr query)
  if cleanQuery = [] then []
  else (List.range (toLowerStr body).length).filter
    (fun p => (toLowerStr cleanQuery).isPrefixOf ((toLowerStr body).drop p))

/-- Specification-side rendering of one occurrence (claim C6): the line
index is the number of line terminators strictly before the byte offset,
and the rendered window spans lines `line - n` to `line + n`, clamped to
the document. -/
def specWindow (body : Str) (n pos : ℕ) : Str :=
  let lines := splitLines body
  let line := (body.take pos).count '\n'
  renderWindow lines line (line - n) (min (line + n) (lines.length - 1))

theorem isPrefixOf_nil_eq_false (pat : Str) (hpat : pat ≠ []) :
    pat.isPrefixOf ([] : Str) = false := by
  cases pat with
  | nil => exact absurd rfl hpat
  | cons a l => simp [List.isPrefixOf]

theorem occLoop_eq_nil_of_none (s pat : Str) (idx : ℕ)
    (h : strIndex (s.drop idx) pat = none) : occLoop s pat idx = [] := by
  rw [occLoop]
  split
  · rfl
  · next pos heq =>
    rw [h] at heq
    cases heq

theorem occLoop_eq_cons_of_some (s pat : Str) (idx pos : ℕ) (hpat : pat ≠ [])
    (h : strIndex (s.drop idx) pat = some pos) :
    occLoop s pat idx = (idx + pos) :: occLoop s pat (idx + pos + 1) := by
  rw [occLoop]
  split
  · next heq =>
    rw [h] at heq
    cases heq
  · next pos' heq =>
    rw [h] at heq
    cases heq
    rw [dif_neg hpat]

theorem occLoop_mem (s pat : Str) (hpat : pat ≠ []) :
    ∀ idx p, p ∈ occLoop s pat idx ↔
      (idx ≤ p ∧ pat.isPrefixOf (s.drop p) = true) := by
  suffices H : ∀ m idx, s.length + 1 - idx ≤ m → ∀ p,
      (p ∈ occLoop s pat idx ↔ idx ≤ p ∧ pat.isPrefixOf (s.drop p) = true) by
    intro idx p
    exact H (s.length + 1 - idx) idx le_rfl p
  intro m
  induction m with
  | zero =>
    intro idx hle p
    have hidxlen : s.length + 1 ≤ idx := by omega
    have hdrop : s.drop idx = [] := List.drop_eq_nil_of_le (by omega)
    have hnone : strIndex (s.drop idx) pat = none := by
      rw [hdrop]
      simp [strIndex, hpat]
    rw [occLoop_eq_nil_of_none s pat idx hnone]
    simp only [List.not_mem_nil, false_iff]
    rintro ⟨hip, hpre⟩
    have hdropp : s.drop p = [] := List.drop_eq_nil_of_le (by omega)
    rw [hdropp, isPrefixOf_nil_eq_false pat hpat] at hpre
    cases hpre
  | succ m ihm =>
    intro idx hle p
    cases hidx : strIndex (s.drop idx) pat with
    | none =>
      rw [occLoop_eq_nil_of_none s pat idx hidx]
      simp only [List.not_mem_nil, false_iff]
      rintro ⟨hip, hpre⟩
      have h2 := strIndex_none_prefix _ _ hidx (p - idx)
      rw [List.drop_drop, Nat.add_sub_cancel' hip] at h2
      rw [h2] at hpre
      cases hpre
    | some pos =>
      rw [occLoop_eq_cons_of_some s pat idx pos hpat hidx]
      have hb := strIndex_bound _ _ _ hpat hidx
      have hdl : (s.drop idx).length = s.length - idx := by simp
      have hpl : 1 ≤ pat.length := by
        cases pat with
        | nil => exact absurd rfl hpat
        | cons a l => simp
      have hrec := ihm (idx + pos + 1) (by omega) p
      obtain ⟨hpre0, hlt0⟩ := strIndex_some_prefix _ _ _ hidx
      rw [List.drop_drop] at hpre0
      constructor
      · intro hmem
        rcases List.mem_cons.mp hmem with heq | hmem'
        · subst heq
          exact ⟨by omega, hpre0⟩
        · have h3 := hrec.mp hmem'
          exact ⟨by omega, h3.2⟩
      · rintro ⟨hip, hpre⟩
        by_cases hp2 : p < idx + pos
        · exfalso
          have h4 := hlt0 (p - idx) (by omega)
          rw [List.drop_drop, Nat.add_sub_cancel' hip] at h4
          rw [h4] at hpre
          cases hpre
        · by_cases hp3 : p = idx + pos
          · subst hp3
            exact List.mem_cons_self _ _
          · exact List.mem_cons_of_mem _ (hrec.mpr ⟨by omega, hpre⟩)

theorem occLoop_sorted (s pat : Str) (hpat : pat ≠ []) :
    ∀ idx, List.Sorted (· < ·) (occLoop s pat idx) := by
  suffices H : ∀ m idx, s.length + 1 - idx ≤ m →
      List.Sorted (· < ·) (occLoop s pat idx) by
    intro idx
    exact H (s.length + 1 - idx) idx le_rfl
  intro m
  induction m with
  | zero =>
    intro idx hle
    have hdrop : s.drop idx = [] := List.drop_eq_nil_of_le (by omega)
    rw [occLoop_eq_nil_of_none s pat idx (by rw [hdrop]; simp [strIndex, hpat])]
    exact List.sorted_nil
  | succ m ihm =>
    intro idx hle
    cases hidx : strIndex (s.drop idx) pat with
    | none =>
      rw [occLoop_eq_nil_of_none s pat idx hidx]
      exact List.sorted_nil
    | some pos =>
      rw [occLoop_eq_cons_of_some s pat idx pos hpat hidx]
      have hb := strIndex_bound _ _ _ hpat hidx
      have hdl : (s.drop idx).length = s.length - idx := by simp
      have hpl : 1 ≤ pat.length := by
        cases pat with
        | nil => exact absurd rfl hpat
        | cons a l => simp
      refine List.sorted_cons.mpr ⟨?_, ihm (idx + pos + 1) (by omega)⟩
      intro y hy
      have := (occLoop_mem s pat hpat (idx + pos + 1) y).mp hy
      omega

theorem occLoop_eq_filter (s pat : Str) (hpat : pat ≠ []) :
    occLoop s pat 0 =
      (List.range s.length).filter (fun p => pat.isPrefixOf (s.drop p)) := by
  haveI : IsAntisymm ℕ (· < ·) := ⟨fun a b h1 h2 => absurd h2 (Nat.lt_asymm h1)⟩
  have hs1 : List.Sorted (· < ·) (occLoop s pat 0) := occLoop_sorted s pat hpat 0
  have hs2 : List.Sorted (· < ·)
      ((List.range s.length).filter (fun p => pat.isPrefixOf (s.drop p))) :=
    List.Pairwise.filter _ (List.pairwise_lt_range s.length)
  refine List.eq_of_perm_of_sorted ?_ hs1 hs2
  rw [List.perm_ext_iff_of_nodup hs1.nodup hs2.nodup]
  intro p
  rw [occLoop_mem s pat hpat 0 p]
  simp only [List.mem_filter, List.mem_range]
  constructor
  · rintro ⟨_, hpre⟩
    refine ⟨?_, hpre⟩
    by_contra hcon
    rw [List.drop_eq_nil_of_le (by omega), isPrefixOf_nil_eq_false pat hpat] at hpre
    cases hpre
  · rintro ⟨_, hpre⟩
    exact ⟨Nat.zero_le p, hpre⟩

theorem extractOffsets_eq (body query : Str) :
    extractOffsetsFromBody body query =
      (specOccs body query).flatMap (fun pos => [2, 0, pos, query.length]) := by
  unfold extractOffsetsFromBody specOccs
  by_cases hq : goTrimSpace (toLowerStr query) = []
  · simp [hq]
  · rw [if_neg hq, if_neg hq]
    have hpat : toLowerStr (goTrimSpace (toLowerStr query)) ≠ [] := by
      intro h
      exact hq (List.map_eq_nil_iff.mp h)
    show (occLoop (toLowerStr body) (toLowerStr (goTrimSpace (toLowerStr query))) 0).flatMap
        (fun pos => [2, 0, pos, query.length]) = _
    rw [occLoop_eq_filter _ _ hpat]

theorem parseMatchSpans_flatMap_true (len : ℕ) :
    ∀ occs : List ℕ,
      parseMatchSpans (occs.flatMap (fun pos => [2, 0, pos, len])) true =
        occs.map (fun p => (p, p + len)) := by
  intro occs
  induction occs with
  | nil => rfl
  | cons p rest ih =>
    simp only [List.flatMap_cons, List.cons_append, List.nil_append, List.map_cons]
    show parseMatchSpans (2 :: 0 :: p :: len :: rest.flatMap (fun pos => [2, 0, pos, len])) true = _
    rw [parseMatchSpans]
    simp [ih]

theorem parseMatchSpans_flatMap_false (len : ℕ) (occs : List ℕ) :
    parseMatchSpans (occs.flatMap (fun pos => [2, 0, pos, len])) false =
      (occs.map (fun p => (p, p + len))).take 1 := by
  cases occs with
  | nil => rfl
  | cons p rest =>
    simp only [List.flatMap_cons, List.cons_append, List.nil_append, List.map_cons,
      List.take_succ_cons, List.take_zero]
    show parseMatchSpans (2 :: 0 :: p :: len :: rest.flatMap (fun pos => [2, 0, pos, len])) false = _
    rw [parseMatchSpans]
    simp

theorem findLineIdxAux_map_add (k : ℕ) :
    ∀ (offs : List ℕ) (p i : ℕ), k ≤ p →
      findLineIdxAux (offs.map (· + k)) p i = findLineIdxAux offs (p - k) i := by
  intro offs
  induction offs with
  | nil => intro p i _; rfl
  | cons a tail ih =>
    intro p i hk
    cases tail with
    | nil => rfl
    | cons b rest =>
      simp only [List.map_cons, findLineIdxAux]
      have hcond : (a + k ≤ p ∧ p < b + k) ↔ (a ≤ p - k ∧ p - k < b) := by omega
      by_cases hc : a ≤ p - k ∧ p - k < b
      · rw [if_pos (hcond.mpr hc), if_pos hc]
      · rw [if_neg (fun h => hc (hcond.mp h)), if_neg hc]
        exact ih p (i + 1) hk

theorem findLineIdxAux_succ :
    ∀ (offs : List ℕ) (p i : ℕ),
      findLineIdxAux offs p (i + 1) = (findLineIdxAux offs p i).map (· + 1) := by
  intro offs
  induction offs with
  | nil => intro p i; rfl
  | cons a tail ih =>
    intro p i
    cases tail with
    | nil => rfl
    | cons b rest =>
      simp only [findLineIdxAux]
      by_cases hc : a ≤ p ∧ p < b
      · rw [if_pos hc, if_pos hc]
        rfl
      · rw [if_neg hc, if_neg hc]
        exact ih p (i + 1)

theorem findLineIdxAux_shift_index :
    ∀ (i : ℕ) (offs : List ℕ) (p : ℕ),
      findLineIdxAux offs p i = (findLineIdxAux offs p 0).map (· + i) := by
  intro i
  induction i with
  | zero =>
    intro offs p
    cases h : findLineIdxAux offs p 0 <;> rfl
  | succ i ih =>
    intro offs p
    rw [findLineIdxAux_succ, ih]
    cases h : findLineIdxAux offs p 0 <;> simp [Nat.add_assoc]

theorem lineOffsets_head_zero (L : List Str) : ∃ tl, lineOffsets L = 0 :: tl := by
  cases L with
  | nil => exact ⟨[], rfl⟩
  | cons l ls => exact ⟨_, rfl⟩

theorem splitLines_ne_nil (s : Str) : splitLines s ≠ [] := by
  cases s with
  | nil => simp [splitLines]
  | cons c rest =>
    simp only [splitLines]
    by_cases hc : c = '\n'
    · simp [hc]
    · rw [if_neg hc]
      cases h : splitLines rest with
      | nil => simp
      | cons l ls => simp

theorem count_take_first_line :
    ∀ (s : Str) (l : Str) (ls : List Str), splitLines s = l :: ls →
      ∀ p ≤ l.length, ((s.take p).count '\n') = 0 := by
  intro s
  induction s with
  | nil =>
    intro l ls h p hp
    simp only [splitLines] at h
    cases h
    simp_all
  | cons c rest ih =>
    intro l ls h p hp
    simp only [splitLines] at h
    by_cases hc : c = '\n'
    · rw [if_pos hc] at h
      cases h
      simp at hp
      subst hp
      simp
    · rw [if_neg hc] at h
      cases hrest : splitLines rest with
      | nil => exact absurd hrest (splitLines_ne_nil rest)
      | cons l0 ls0 =>
        rw [hrest] at h
        injection h with h1 h2
        subst h1
        subst h2
        cases p with
        | zero => simp
        | succ p' =>
          simp only [List.take_succ_cons, List.count_cons]
          have h1 : ((rest.take p').count '\n') = 0 :=
            ih l0 ls0 hrest p' (by simpa using hp)
          simp [h1, hc]

theorem findLineIdxAux_correct :
    ∀ (s : Str) (p : ℕ), p ≤ s.length →
      findLineIdxAux (lineOffsets (splitLines s)) p 0 =
        some ((s.take p).count '\n') := by
  intro s
  induction s with
  | nil =>
    intro p hp
    have hp0 : p = 0 := by simpa using hp
    subst hp0
    simp [splitLines, lineOffsets, findLineIdxAux]
  | cons c rest ih =>
    intro p hp
    by_cases hc : c = '\n'
    · subst hc
      have hsl : splitLines ('\n' :: rest) = [] :: splitLines rest := by
        simp [splitLines]
      obtain ⟨tl, htl⟩ := lineOffsets_head_zero (splitLines rest)
      have hlo : lineOffsets (splitLines ('\n' :: rest)) =
          0 :: (0 :: tl).map (· + 1) := by
        rw [hsl]
        show 0 :: (lineOffsets (splitLines rest)).map (· + (List.length ([] : Str) + 1)) = _
        rw [htl]
        simp
      rw [hlo]
      by_cases hp0 : p = 0
      · subst hp0
        simp [findLineIdxAux]
      · have hp1 : 1 ≤ p := by omega
        simp only [List.map_cons]
        rw [findLineIdxAux, if_neg (by omega)]
        have hmap : (0 + 1) :: tl.map (· + 1) = (0 :: tl).map (· + 1) := by simp
        rw [hmap, findLineIdxAux_shift_index 1, findLineIdxAux_map_add 1 (0 :: tl) p 0 hp1,
          ← htl, ih (p - 1) (by simp at hp; omega)]
        cases p with
        | zero => omega
        | succ p' =>
          simp [List.count_cons]
    · cases hrest : splitLines rest with
      | nil => exact absurd hrest (splitLines_ne_nil rest)
      | cons l0 ls =>
        have hsl : splitLines (c :: rest) = (c :: l0) :: ls := by
          simp only [splitLines]
          rw [if_neg hc, hrest]
        obtain ⟨tl0, htl0⟩ := lineOffsets_head_zero ls
        have hlo : lineOffsets (splitLines (c :: rest)) =
            0 :: (l0.length + 2) :: tl0.map (· + (l0.length + 2)) := by
          rw [hsl]
          show 0 :: (lineOffsets ls).map (· + (List.length (c :: l0) + 1)) = _
          rw [htl0]
          simp [Nat.add_assoc]
        by_cases hp1 : p < l0.length + 2
        · rw [hlo, findLineIdxAux, if_pos ⟨Nat.zero_le p, hp1⟩]
          have hcount := count_take_first_line (c :: rest) (c :: l0) ls hsl p
            (by simp only [List.length_cons]; omega)
          rw [hcount]
        · rw [hlo, findLineIdxAux, if_neg (by omega)]
          have hmap2 : (l0.length + 2) :: tl0.map (· + (l0.length + 2)) =
              (0 :: tl0).map (· + (l0.length + 2)) := by simp
          rw [hmap2, findLineIdxAux_shift_index 1,
            findLineIdxAux_map_add (l0.length + 2) (0 :: tl0) p 0 (by omega), ← htl0]
          have hlo' : lineOffsets (splitLines rest) =
              0 :: (l0.length + 1) :: tl0.map (· + (l0.length + 1)) := by
            rw [hrest]
            show 0 :: (lineOffsets ls).map (· + (List.length l0 + 1)) = _
            rw [htl0]
            simp
          have hih := ih (p - 1) (by simp at hp; omega)
          rw [hlo', findLineIdxAux, if_neg (by omega)] at hih
          have hmap3 : (l0.length + 1) :: tl0.map (· + (l0.length + 1)) =
              (0 :: tl0).map (· + (l0.length + 1)) := by simp
          rw [hmap3, findLineIdxAux_shift_index 1,
            findLineIdxAux_map_add (l0.length + 1) (0 :: tl0) (p - 1) 0 (by omega),
            ← htl0] at hih
          have harg : p - 1 - (l0.length + 1) = p - (l0.length + 2) := by omega
          rw [harg] at hih
          rw [hih]
          cases p with
          | zero => omega
          | succ p' =>
            have hcn : ¬ '\n' = c := fun h => hc h.symm
            simp [List.count_cons, hcn]

theorem findLineIdx_eq_count (s : Str) (p : ℕ) (hp : p ≤ s.length) :
    findLineIdx (lineOffsets (splitLines s)) p = (s.take p).count '\n' := by
  rw [findLineIdx, findLineIdxAux_correct s p hp]
  rfl

theorem specOccs_lt_length (body query : Str) (p : ℕ) (hp : p ∈ specOccs body query) :
    p < body.length := by
  unfold specOccs at hp
  by_cases hq : goTrimSpace (toLowerStr query) = []
  · rw [if_pos hq] at hp
    cases hp
  · rw [if_neg hq] at hp
    have := List.mem_range.mp (List.mem_filter.mp hp).1
    simpa [toLowerStr] using this


theorem extractMatches_offsets_eq (body query : Str) (n : ℕ) (fa : Bool) :
    extractMatches body (extractOffsetsFromBody body query) n fa =
      ((if fa then specOccs body query else (specOccs body query).take 1).map
        (fun pos => specWindow body n pos)) := by
  rw [extractOffsets_eq]
  cases hocc : specOccs body query with
  | nil => cases fa <;> simp [extractMatches, parseMatchSpans]
  | cons p0 ps =>
    cases fa with
    | false =>
      have hspans := parseMatchSpans_flatMap_false query.length (p0 :: ps)
      unfold extractMatches
      rw [hspans]
      have hp0 : p0 ∈ specOccs body query := by
        rw [hocc]
        exact List.mem_cons_self _ _
      have hplt : p0 < body.length := specOccs_lt_length body query p0 hp0
      rw [if_neg (by simp)]
      simp only [Bool.false_eq_true, if_false, List.map_cons, List.take_succ_cons,
        List.take_zero, List.map_nil, List.map_map, Function.comp, specWindow]
      rw [findLineIdx_eq_count body p0 (le_of_lt hplt)]
    | true =>
      have hspans := parseMatchSpans_flatMap_true query.length (p0 :: ps)
      unfold extractMatches
      rw [hspans]
      rw [if_neg (by simp)]
      rw [List.map_map]
      refine List.map_congr_left ?_
      intro p hpmem
      have hplt : p < body.length := specOccs_lt_length body query p (hocc ▸ hpmem)
      simp only [Function.comp]
      unfold specWindow
      rw [findLineIdx_eq_count body p (le_of_lt hplt)]

/-- The document body of claim C6's concrete example. -/
def exampleBody : Str := "a\nb\nMATCH here\nc\nd".toList

/-- C6: every located occurrence of the query is rendered at the line
index given by the number of line terminators before its byte offset
(equivalently, the cumulative per-line byte lengths with one byte per
terminator), as the window of lines from line - n to line + n clamped to
the document, with the matched line marked; the concrete example body
yields the single 3-line window centred on line 2. -/
theorem fts_c6 :
    (∀ body query n,
      extractMatches body (extractOffsetsFromBody body query) n true =
        (specOccs body query).map (fun pos => specWindow body n pos)) ∧
    extractMatches exampleBody (extractOffsetsFromBody exampleBody ("MATCH".toList)) 1 true =
      [("   b\n-> MATCH here\n   c").toList] := by
  have hgen : ∀ body query n,
      extractMatches body (extractOffsetsFromBody body query) n true =
        (specOccs body query).map (fun pos => specWindow body n pos) := by
    intro body query n
    simpa using extractMatches_offsets_eq body query n true
  refine ⟨hgen, ?_⟩
  rw [hgen]
  decide

/-- One row returned by the underlying FTS engine for `SearchFTS`
(store.go lines 337-358): rowid, filepath, title, raw body and BM25
rank, in rank order.  The SQL MATCH/ORDER BY/LIMIT part is the external
BM25 engine; the model starts from its returned rows. -/
structure FTSRow where
  rowid : Int
  filepath : Str
  title : Str
  body : Str
  rank : ℚ

/-- The per-row post-processing of `SearchFTS` (store.go lines 354-375):
locate the (trimmed) query in the body, render context matches, and fall
back to a 200-byte prefix with an ellipsis when nothing was rendered. -/
def resultOfRow (query : Str) (contextLines : ℕ) (findAll : Bool) (row : FTSRow) :
    SearchResult :=
  let offsets := extractOffsetsFromBody row.body query
  let ms := extractMatches row.body offsets contextLines findAll
  let snippet :=
    if ms = [] then
      (if 200 < row.body.length then row.body.take 200 ++ ("...".toList) else row.body)
    else ms.headD []
  ⟨row.rowid, row.filepath, row.title, snippet, row.rank, ms⟩

/-- Model of `SearchFTS` (store.go lines 332-378): the query is trimmed
once at the top, then every engine row is post-processed. -/
def SearchFTS (rows : List FTSRow) (query : Str) (contextLines : ℕ) (findAll : Bool) :
    List SearchResult :=
  rows.map (resultOfRow (goTrimSpace query) contextLines findAll)

theorem resultOfRow_Matches (query : Str) (n : ℕ) (fa : Bool) (row : FTSRow) :
    (resultOfRow query n fa row).Matches =
      extractMatches row.body (extractOffsetsFromBody row.body query) n fa := rfl

theorem resultOfRow_Snippet (query : Str) (n : ℕ) (fa : Bool) (row : FTSRow) :
    (resultOfRow query n fa row).Snippet =
      (if extractMatches row.body (extractOffsetsFromBody row.body query) n fa = [] then
        (if 200 < row.body.length then row.body.take 200 ++ ("...".toList) else row.body)
      else (extractMatches row.body (extractOffsetsFromBody row.body query) n fa).headD []) :=
  rfl

/-- C7: for every result of SearchFTS, when no case-insensitive
occurrence of the (trimmed) query is found in the row's body the snippet
falls back to the first 200 bytes of the body, with an ellipsis exactly
when the body is longer than 200 bytes; when at least one match is
rendered, the snippet is the first rendered match and the match list
holds all rendered matches in order. -/
theorem fts_c7 :
    ∀ (rows : List FTSRow) (query : Str) (n : ℕ) (fa : Bool),
      ∀ r ∈ SearchFTS rows query n fa, ∃ row ∈ rows,
        (specOccs row.body (goTrimSpace query) = [] →
          r.Matches = [] ∧
          r.Snippet = (if 200 < row.body.length
            then row.body.take 200 ++ ("...".toList) else row.body)) ∧
        (specOccs row.body (goTrimSpace query) ≠ [] →
          r.Matches ≠ [] ∧ r.Snippet = r.Matches.headD [] ∧
          r.Matches = ((if fa then specOccs row.body (goTrimSpace query)
            else (specOccs row.body (goTrimSpace query)).take 1).map
              (fun pos => specWindow row.body n pos))) := by
  intro rows query n fa r hr
  obtain ⟨row, hrow, rfl⟩ := List.mem_map.mp hr
  refine ⟨row, hrow, ?_, ?_⟩
  · intro hnone
    have hms : extractMatches row.body
        (extractOffsetsFromBody row.body (goTrimSpace query)) n fa = [] := by
      rw [extractMatches_offsets_eq, hnone]
      cases fa <;> simp
    rw [resultOfRow_Matches, resultOfRow_Snippet, hms, if_pos rfl]
    exact ⟨rfl, rfl⟩
  · intro hsome
    have hms : extractMatches row.body
        (extractOffsetsFromBody row.body (goTrimSpace query)) n fa =
        ((if fa then specOccs row.body (goTrimSpace query)
          else (specOccs row.body (goTrimSpace query)).take 1).map
            (fun pos => specWindow row.body n pos)) :=
      extractMatches_offsets_eq row.body (goTrimSpace query) n fa
    have hne : extractMatches row.body
        (extractOffsetsFromBody row.body (goTrimSpace query)) n fa ≠ [] := by
      rw [hms]
      cases hocc : specOccs row.body (goTrimSpace query) with
      | nil => exact absurd hocc hsome
      | cons p0 ps => cases fa <;> simp
    rw [resultOfRow_Matches, resultOfRow_Snippet, if_neg hne]
    exact ⟨hne, rfl, hms⟩

/-- Example FTS row for the witness instantiations. -/
def exampleRow : FTSRow := ⟨0, [], [], exampleBody, 0⟩

/-- Witness for C7: concrete instantiation on the example body. -/
theorem fts_c7_witness :
    ∃ row ∈ [exampleRow],
      (specOccs row.body (goTrimSpace ("MATCH".toList)) ≠ [] →
        (resultOfRow (goTrimSpace ("MATCH".toList)) 1 true exampleRow).Matches ≠ []) := by
  obtain ⟨row, hrow, _, h2⟩ := fts_c7 [exampleRow] ("MATCH".toList) 1 true
    (resultOfRow (goTrimSpace ("MATCH".toList)) 1 true exampleRow)
    (List.mem_singleton.mpr rfl)
  rcases List.mem_singleton.mp hrow with rfl
  exact ⟨exampleRow, List.mem_singleton.mpr rfl, fun h => (h2 h).1⟩

/-- The RE2 character class `\s` (space, tab, newline, form feed,
carriage return) used by Go's regexp package. -/
def isSpaceRE2 (c : Char) : Bool :=
  c = ' ' || c = '\t' || c = '\n' || c = '\x0C' || c = '\r'

/-- Backtracking of the greedy `\s+` in `^#\s+(.+)$`: starting from the
full whitespace run of length `t`, give back characters until `.+` can
match, i.e. until the character right after the run is not a line
terminator. -/
def backtrackPos : ℕ → Str → Option ℕ
  | 0, _ => none
  | t + 1, rest =>
    match rest.drop (t + 1) with
    | c :: _ => if c ≠ '\n' then some (t + 1) else backtrackPos t rest
    | [] => backtrackPos t rest

/-- A match attempt of the Go regexp `^#\s+(.+)$` (or `^##\s+(.+)$` for
`marks = 2`) anchored at the start of `s`, which must be a line start:
the `#` marks, then a greedy nonempty `\s` run (which in Go may cross a
line terminator), then the nonempty group of non-terminator characters
up to the end of the enclosing line.  Returns the submatch group. -/
def matchHashHeading (marks : ℕ) (s : Str) : Option Str :=
  if s.take marks = List.replicate marks '#' then
    if (s.drop marks).takeWhile isSpaceRE2 = [] then none
    else
      match backtrackPos ((s.drop marks).takeWhile isSpaceRE2).length (s.drop marks) with
      | none => none
      | some t => some (((s.drop marks).drop t).takeWhile (· ≠ '\n'))
  else none

/-- The scan of `regexp.FindStringSubmatch` over the document for a
`(?m)^` anchored pattern: attempt the match at every line start, in
order; the flag records whether the current position is a line start. -/
def findHeadingAux (m : ℕ) : Str → Bool → Option Str
  | s, true =>
    match matchHashHeading m s with
    | some g => some g
    | none =>
      match s with
      | [] => none
      | c :: rest => findHeadingAux m rest (c = '\n')
  | s, false =>
    match s with
    | [] => none
    | c :: rest => findHeadingAux m rest (c = '\n')

/-- First match of the heading regexp with `m` marks over the document. -/
def findHeading (m : ℕ) (s : Str) : Option Str := findHeadingAux m s true

/-- Go `filepath.Base`. -/
def goBase (p : Str) : Str :=
  if p = [] then ['.']
  else
    let q := (p.reverse.dropWhile (fun c => c = '/')).reverse
    if q = [] then ['/']
    else (q.reverse.takeWhile (fun c => c ≠ '/')).reverse

/-- Go `filepath.Ext`: the suffix beginning at the final dot in the
final path element; empty when there is none. -/
def goExt (p : Str) : Str :=
  let seg := p.reverse.takeWhile (fun c => c ≠ '/')
  if seg.any (fun c => c = '.') then (seg.takeWhile (fun c => c ≠ '.') ++ ['.']).reverse
  else []

/-- Go `strings.TrimSuffix`. -/
def goTrimSuffix (s suf : Str) : Str :=
  if suf.isSuffixOf s then s.take (s.length - suf.length) else s

/-- Model of `util.ExtractTitle` (util.go lines 16-32): first H1 regexp
match, else first H2 regexp match, else the filename's base without its
extension; matched heading text is trimmed. -/
def ExtractTitle (content filename : Str) : Str :=
  match findHeading 1 content with
  | some g => goTrimSpace g
  | none =>
    match findHeading 2 content with
    | some g => goTrimSpace g
    | none =>
      let base := goBase filename
      goTrimSuffix base (goExt base)

/-- Specification-side reading of a heading line (claim C9): a line is a
level-`m` heading when it carries exactly the `m` `#` marks, then at
least one whitespace character, then at least one further character on
the same line; its text is the trimmed remainder after the marks. -/
def specHeadingText (m : ℕ) (line : Str) : Option Str :=
  if line.take m = List.replicate m '#' ∧
      (line.drop m).takeWhile isSpaceRE2 ≠ [] ∧
      (line.drop m).dropWhile isSpaceRE2 ≠ [] then
    some (goTrimSpace (line.drop m))
  else none

/-- Specification-side title derivation (claim C9): the text of the
first first-level heading line, else of the first second-level heading
line, else the filename's base name with its extension removed. -/
def specTitle (content filename : Str) : Str :=
  match (splitLines content).findSome? (specHeadingText 1) with
  | some t => t
  | none =>
    match (splitLines content).findSome? (specHeadingText 2) with
    | some t => t
    | none => goTrimSuffix (goBase filename) (goExt (goBase filename))

/-- A marker line that defeats the line-based reading: the `#` marks are
followed by nothing but whitespace on their own line, so the regexp's
`\s+` crosses the line terminator and takes its heading text from a
later line. -/
def badMarkerLine (m : ℕ) (line : Str) : Prop :=
  line.take m = List.replicate m '#' ∧ (line.drop m).all isSpaceRE2

instance (m : ℕ) (line : Str) : Decidable (badMarkerLine m line) := by
  unfold badMarkerLine
  infer_instance

/-- Counterexample to C9 as stated: on the document consisting of a bare
hash line followed by the line X, the code derives the title X (the
regexp's whitespace run crosses the line break), while no line of the
document is a first- or second-level heading, so the line-based reading
falls back to the file base name f. -/
theorem extractTitle_c9_counterexample :
    ExtractTitle ("#\nX".toList) ("f.md".toList) = ("X".toList) ∧
    specTitle ("#\nX".toList) ("f.md".toList) = ("f".toList) ∧
    ExtractTitle ("#\nX".toList) ("f.md".toList) ≠
      specTitle ("#\nX".toList) ("f.md".toList) := by
  refine ⟨by decide, by decide, by decide⟩

theorem takeWhile_append_of_break (p : Char → Bool) :
    ∀ (l d : Str), l.dropWhile p ≠ [] →
      (l ++ d).takeWhile p = l.takeWhile p ∧
      (l ++ d).dropWhile p = l.dropWhile p ++ d := by
  intro l
  induction l with
  | nil => intro d h; exact absurd rfl h
  | cons c cs ih =>
    intro d h
    by_cases hc : p c
    · rw [List.dropWhile_cons_of_pos hc] at h
      have := ih d h
      simp only [List.cons_append, List.takeWhile_cons_of_pos hc,
        List.dropWhile_cons_of_pos hc]
      exact ⟨by rw [this.1], this.2⟩
    · have hc' : p c = false := Bool.eq_false_iff.mpr hc
      simp [List.cons_append, List.takeWhile_cons_of_neg, List.dropWhile_cons_of_neg, hc']

theorem takeWhile_all_append (p : Char → Bool) :
    ∀ (l d : Str), (∀ x ∈ l, p x = true) →
      (l ++ d).takeWhile p = l ++ d.takeWhile p := by
  intro l
  induction l with
  | nil => intro d _; rfl
  | cons c cs ih =>
    intro d hall
    have hc : p c = true := hall c (List.mem_cons_self _ _)
    simp only [List.cons_append, List.takeWhile_cons_of_pos hc]
    rw [ih d (fun x hx => hall x (List.mem_cons_of_mem _ hx))]

theorem dropWhile_all_append (p : Char → Bool) :
    ∀ (l d : Str), (∀ x ∈ l, p x = true) →
      (l ++ d).dropWhile p = d.dropWhile p := by
  intro l
  induction l with
  | nil => intro d _; rfl
  | cons c cs ih =>
    intro d hall
    have hc : p c = true := hall c (List.mem_cons_self _ _)
    simp only [List.cons_append, List.dropWhile_cons_of_pos hc]
    exact ih d (fun x hx => hall x (List.mem_cons_of_mem _ hx))

theorem dropWhile_head_not (p : Char → Bool) :
    ∀ (l : Str) (x : Char) (xs : Str), l.dropWhile p = x :: xs → p x = false := by
  intro l
  induction l with
  | nil => intro x xs h; cases h
  | cons c cs ih =>
    intro x xs h
    by_cases hc : p c
    · rw [List.dropWhile_cons_of_pos hc] at h
      exact ih x xs h
    · rw [List.dropWhile_cons_of_neg hc] at h
      injection h with h1 _
      rw [← h1]
      exact Bool.eq_false_iff.mpr hc

theorem re2_space_is_go_space (c : Char) (h : isSpaceRE2 c = true) : isGoSpace c = true := by
  simp only [isSpaceRE2, Bool.or_eq_true, decide_eq_true_eq] at h
  simp only [isGoSpace, Bool.or_eq_true, decide_eq_true_eq]
  tauto

theorem matchHashHeading_line (m : ℕ) (L D : Str)
    (hL : '\n' ∉ L) (hD : D = [] ∨ ∃ tl, D = '\n' :: tl)
    (hbad : ¬ badMarkerLine m L) :
    (matchHashHeading m (L ++ D)).map goTrimSpace = specHeadingText m L := by
  by_cases hmark : L.take m = List.replicate m '#'
  · have hlen : m ≤ L.length := by
      have := congrArg List.length hmark
      simp only [List.length_take, List.length_replicate] at this
      omega
    have hmark' : (L ++ D).take m = List.replicate m '#' := by
      rw [List.take_append_of_le_length hlen]
      exact hmark
    have hdrop : (L ++ D).drop m = L.drop m ++ D :=
      List.drop_append_of_le_length hlen
    have hRn : ∀ x ∈ L.drop m, (x ≠ '\n') := by
      intro x hx h
      exact hL (h ▸ List.mem_of_mem_drop hx)
    have hnotall : ¬ (L.drop m).all isSpaceRE2 := by
      intro h
      exact hbad ⟨hmark, h⟩
    have hdw : (L.drop m).dropWhile isSpaceRE2 ≠ [] := by
      intro h
      exact hnotall (List.all_eq_true.mpr (List.dropWhile_eq_nil_iff.mp h))
    obtain ⟨htw, hdwapp⟩ := takeWhile_append_of_break isSpaceRE2 (L.drop m) D hdw
    unfold matchHashHeading specHeadingText
    rw [if_pos hmark', hdrop, htw]
    by_cases hws : (L.drop m).takeWhile isSpaceRE2 = []
    · rw [if_pos hws, if_neg]
      · rfl
      · rintro ⟨_, h2, _⟩
        exact h2 hws
    · rw [if_neg hws]
      cases hdwc : (L.drop m).dropWhile isSpaceRE2 with
      | nil => exact absurd hdwc hdw
      | cons x xs =>
        have hx : isSpaceRE2 x = false := dropWhile_head_not _ _ x xs hdwc
        have hxn : x ≠ '\n' := by
          intro h
          rw [h] at hx
          simp [isSpaceRE2] at hx
        have hreconL : (L.drop m).takeWhile isSpaceRE2 ++ (x :: xs) = L.drop m := by
          rw [← hdwc]
          exact List.takeWhile_append_dropWhile _ _
        have hsplit : (L.drop m ++ D).drop ((L.drop m).takeWhile isSpaceRE2).length =
            x :: (xs ++ D) := by
          have hre : L.drop m ++ D = (L.drop m).takeWhile isSpaceRE2 ++ ((x :: xs) ++ D) := by
            rw [← List.append_assoc, hreconL]
          rw [hre, List.drop_left]
          rfl
        cases hwsl : ((L.drop m).takeWhile isSpaceRE2).length with
        | zero =>
          exact absurd (List.eq_nil_of_length_eq_zero hwsl) hws
        | succ k =>
          have hs2 : (L.drop m ++ D).drop (k + 1) = x :: (xs ++ D) := by
            rw [← hwsl]
            exact hsplit
          have hbt : backtrackPos (k + 1) (L.drop m ++ D) = some (k + 1) := by
            rw [backtrackPos, hs2]
            show (if x ≠ '\n' then some (k + 1) else backtrackPos k (L.drop m ++ D)) =
              some (k + 1)
            rw [if_pos hxn]
          have hgroup : ((L.drop m ++ D).drop (k + 1)).takeWhile
              (fun c => decide (c ≠ '\n')) = x :: xs := by
            rw [hs2]
            have hxxs : ∀ y ∈ x :: xs, (fun c => decide (c ≠ '\n')) y = true := by
              intro y hy
              have hymem : y ∈ L.drop m := by
                rw [← hreconL]
                exact List.mem_append_right _ hy
              simp only [decide_eq_true_eq]
              exact hRn y hymem
            rw [show x :: (xs ++ D) = (x :: xs) ++ D from rfl,
              takeWhile_all_append (fun c => decide (c ≠ '\n')) (x :: xs) D hxxs]
            rcases hD with rfl | ⟨tl, rfl⟩
            · simp
            · simp
          rw [hbt]
          show Option.map goTrimSpace
              (some (((L.drop m ++ D).drop (k + 1)).takeWhile (fun c => decide (c ≠ '\n')))) =
            if L.take m = List.replicate m '#' ∧
                (L.drop m).takeWhile isSpaceRE2 ≠ [] ∧ x :: xs ≠ [] then
              some (goTrimSpace (L.drop m))
            else none
          rw [hgroup, if_pos (And.intro hmark (And.intro hws (List.cons_ne_nil x xs)))]
          show some (goTrimSpace (x :: xs)) = some (goTrimSpace (L.drop m))
          congr 1
          have hwsall : ∀ y ∈ (L.drop m).takeWhile isSpaceRE2, isGoSpace y = true := by
            intro y hy
            exact re2_space_is_go_space y (List.mem_takeWhile_imp hy)
          have hdrops : (L.drop m).dropWhile isGoSpace = (x :: xs).dropWhile isGoSpace := by
            rw [← hreconL]
            exact dropWhile_all_append isGoSpace _ _ hwsall
          unfold goTrimSpace
          rw [hdrops]
  · have hmark' : ¬ (L ++ D).take m = List.replicate m '#' := by
      by_cases hlen : m ≤ L.length
      · rw [List.take_append_of_le_length hlen]
        exact hmark
      · intro h
        rcases hD with rfl | ⟨tl, rfl⟩
        · rw [List.append_nil] at h
          have := congrArg List.length h
          simp only [List.length_take, List.length_replicate] at this
          omega
        · have hm' : m = L.length + (m - L.length) := by omega
          rw [hm', List.take_append] at h
          have hpos : 0 < m - L.length := by omega
          have hmem : '\n' ∈ L ++ List.take (m - L.length) ('\n' :: tl) := by
            refine List.mem_append_right _ ?_
            cases hmm : m - L.length with
            | zero => omega
            | succ j => simp
          rw [h] at hmem
          have := List.eq_of_mem_replicate hmem
          cases this
    unfold matchHashHeading specHeadingText
    rw [if_neg hmark', if_neg]
    · rfl
    · rintro ⟨h1, _, _⟩
      exact hmark h1

theorem splitLines_head (s : Str) :
    ∃ ls, splitLines s = (s.takeWhile (fun c => decide (c ≠ '\n'))) :: ls := by
  induction s with
  | nil => exact ⟨[], rfl⟩
  | cons c rest ih =>
    by_cases hc : c = '\n'
    · subst hc
      refine ⟨splitLines rest, ?_⟩
      rw [List.takeWhile_cons_of_neg (by simp)]
      simp [splitLines]
    · obtain ⟨ls, hls⟩ := ih
      cases hsp : splitLines rest with
      | nil => exact absurd hsp (splitLines_ne_nil rest)
      | cons l0 ls0 =>
        refine ⟨ls0, ?_⟩
        have hsl : splitLines (c :: rest) = (c :: l0) :: ls0 := by
          simp only [splitLines]
          rw [if_neg hc, hsp]
        rw [hsl, List.takeWhile_cons_of_pos (by simp [hc])]
        rw [hls] at hsp
        injection hsp with hl0 _
        rw [hl0]

theorem dropWhile_ne_newline (s : Str) :
    s.dropWhile (fun c => decide (c ≠ '\n')) = [] ∨
      ∃ tl, s.dropWhile (fun c => decide (c ≠ '\n')) = '\n' :: tl := by
  cases h : s.dropWhile (fun c => decide (c ≠ '\n')) with
  | nil => exact Or.inl rfl
  | cons x tl =>
    right
    refine ⟨tl, ?_⟩
    have := dropWhile_head_not _ s x tl h
    simp only [decide_eq_false_iff_not, not_not] at this
    rw [this]

theorem newline_not_mem_takeWhile (s : Str) :
    '\n' ∉ s.takeWhile (fun c => decide (c ≠ '\n')) := by
  intro h
  have := List.mem_takeWhile_imp h
  simp at this

theorem findHeadingAux_spec (m : ℕ) (hm : m ≠ 0) :
    ∀ s : Str,
      ((∀ line ∈ splitLines s, ¬ badMarkerLine m line) →
        (findHeadingAux m s true).map goTrimSpace =
          (splitLines s).findSome? (specHeadingText m)) ∧
      ((∀ line ∈ (splitLines s).tail, ¬ badMarkerLine m line) →
        (findHeadingAux m s false).map goTrimSpace =
          ((splitLines s).tail).findSome? (specHeadingText m)) := by
  intro s
  induction s with
  | nil =>
    have hmempty : matchHashHeading m [] = none := by
      unfold matchHashHeading
      rw [if_neg]
      intro h
      have := congrArg List.length h
      simp only [List.length_take, List.length_replicate, List.length_nil] at this
      omega
    constructor
    · intro _
      have haux : findHeadingAux m ([] : Str) true = none := by
        simp [findHeadingAux, hmempty]
      have hspec : specHeadingText m [] = none := by
        unfold specHeadingText
        rw [if_neg]
        rintro ⟨h, _, _⟩
        have := congrArg List.length h
        simp only [List.length_take, List.length_replicate, List.length_nil] at this
        omega
      rw [haux]
      show (none : Option Str) = List.findSome? (specHeadingText m) [([] : Str)]
      simp [List.findSome?_cons, hspec]
    · intro _
      rfl
  | cons c rest ih =>
    have hfalse : (∀ line ∈ (splitLines (c :: rest)).tail, ¬ badMarkerLine m line) →
        (findHeadingAux m (c :: rest) false).map goTrimSpace =
          ((splitLines (c :: rest)).tail).findSome? (specHeadingText m) := by
      intro hlines
      by_cases hc : c = '\n'
      · subst hc
        have e1 : findHeadingAux m ('\n' :: rest) false = findHeadingAux m rest true := by
          show findHeadingAux m rest (decide (('\n' : Char) = '\n')) = _
          simp
        have hsl : splitLines ('\n' :: rest) = [] :: splitLines rest := by
          simp [splitLines]
        rw [e1, hsl]
        exact ih.1 (by rw [hsl] at hlines; exact hlines)
      · cases hsp : splitLines rest with
        | nil => exact absurd hsp (splitLines_ne_nil rest)
        | cons l0 ls0 =>
          have hsl : splitLines (c :: rest) = (c :: l0) :: ls0 := by
            simp only [splitLines]
            rw [if_neg hc, hsp]
          have e1 : findHeadingAux m (c :: rest) false = findHeadingAux m rest false := by
            show findHeadingAux m rest (decide (c = '\n')) = _
            rw [decide_eq_false hc]
          rw [e1, hsl]
          have := ih.2
          rw [hsp] at this
          exact this (by rw [hsl] at hlines; exact hlines)
    refine ⟨?_, hfalse⟩
    intro hlines
    obtain ⟨ls1, hls1⟩ := splitLines_head (c :: rest)
    have hcr : c :: rest =
        (c :: rest).takeWhile (fun c => decide (c ≠ '\n')) ++
          (c :: rest).dropWhile (fun c => decide (c ≠ '\n')) :=
      (List.takeWhile_append_dropWhile _ _).symm
    have hbadL : ¬ badMarkerLine m ((c :: rest).takeWhile (fun c => decide (c ≠ '\n'))) := by
      apply hlines
      rw [hls1]
      exact List.mem_cons_self _ _
    have hmatch : (matchHashHeading m (c :: rest)).map goTrimSpace =
        specHeadingText m ((c :: rest).takeWhile (fun c => decide (c ≠ '\n'))) := by
      conv_lhs => rw [hcr]
      exact matchHashHeading_line m _ _ (newline_not_mem_takeWhile (c :: rest))
        (dropWhile_ne_newline (c :: rest)) hbadL
    cases hmm : matchHashHeading m (c :: rest) with
    | some g =>
      rw [hmm] at hmatch
      have haux : findHeadingAux m (c :: rest) true = some g := by
        simp [findHeadingAux, hmm]
      rw [haux, hls1, List.findSome?_cons, ← hmatch]
      rfl
    | none =>
      rw [hmm] at hmatch
      have haux : findHeadingAux m (c :: rest) true = findHeadingAux m (c :: rest) false := by
        simp only [findHeadingAux, hmm]
      rw [haux, hls1, List.findSome?_cons, ← hmatch]
      have htail : (splitLines (c :: rest)).tail = ls1 := by
        rw [hls1]
        rfl
      rw [← htail]
      exact hfalse (fun line hl => hlines line (List.mem_of_mem_tail hl))

/-- C9 (amended): for every document in which no line consists of the
heading marker (one or two hash marks) followed by nothing but
whitespace, the derived title is the text of the first first-level
heading line if one exists, else the text of the first second-level
heading line if one exists, else the filename's base name with its
extension removed.  (On documents violating the proviso, the Go regexp's
whitespace class crosses the line terminator and the title is taken from
a later line, as the counterexample shows.) -/
theorem extractTitle_c9_amended :
    ∀ content filename : Str,
      (∀ line ∈ splitLines content, ¬ badMarkerLine 1 line ∧ ¬ badMarkerLine 2 line) →
      ExtractTitle content filename = specTitle content filename := by
  intro content filename h
  have h1 := (findHeadingAux_spec 1 (by omega) content).1 (fun l hl => (h l hl).1)
  have h2 := (findHeadingAux_spec 2 (by omega) content).1 (fun l hl => (h l hl).2)
  unfold ExtractTitle specTitle findHeading
  cases e1 : findHeadingAux 1 content true with
  | some g =>
    rw [e1] at h1
    have hf1 : (splitLines content).findSome? (specHeadingText 1) = some (goTrimSpace g) := by
      rw [← h1]
      rfl
    rw [hf1]
  | none =>
    rw [e1] at h1
    have hf1 : (splitLines content).findSome? (specHeadingText 1) = none := by
      rw [← h1]
      rfl
    rw [hf1]
    cases e2 : findHeadingAux 2 content true with
    | some g =>
      rw [e2] at h2
      have hf2 : (splitLines content).findSome? (specHeadingText 2) = some (goTrimSpace g) := by
        rw [← h2]
        rfl
      rw [hf2]
    | none =>
      rw [e2] at h2
      have hf2 : (splitLines content).findSome? (specHeadingText 2) = none := by
        rw [← h2]
        rfl
      rw [hf2]

/-- Witness for the amended C9 at a well-formed document. -/
theorem extractTitle_c9_witness :
    ExtractTitle ("# Title\nbody".toList) ("notes.md".toList) =
      specTitle ("# Title\nbody".toList) ("notes.md".toList) :=
  extractTitle_c9_amended _ _ (by decide)

/-- A row of the `documents` table (store.go lines 75-85). -/
structure DocRow where
  id : ℕ
  collection : Str
  path : Str
  title : Str
  hash : Str
  active : Bool
  modifiedAt : Str
deriving DecidableEq

/-- The persistent store state: the `content`, `documents`,
`content_vectors` and `vectors_vec` tables (store.go lines 55-138).
`content` rows are (hash, doc, created_at); the vec0 virtual table key
`hash || '_' || seq` is modelled as the (hash, seq) pair (hashes are hex
SHA-256 strings, on which the underscore encoding is injective);
`vectorDim` is the fixed dimension declared by `EnsureVectorTable`. -/
structure DBState where
  content : List (Str × Str × Str)
  documents : List DocRow
  nextId : ℕ
  contentVectors : List (Str × ℤ)
  vectors : List ((Str × ℤ) × List ℚ)
  vectorDim : ℕ
deriving DecidableEq

/-- Errors surfaced by the store operations.  `notFound` stands for the
`document not found: collection/path` error (message text elided);
`dimensionMismatch` for sqlite-vec rejecting a vector whose width
disagrees with the declared `float[dim]` column. -/
inductive DBErr where
  | notFound : DBErr
  | dimensionMismatch : DBErr
deriving DecidableEq

/-- `INSERT OR IGNORE INTO content` (store.go line 302): a duplicate
hash is ignored, not an error. -/
def insertOrIgnoreContent (st : DBState) (hash doc now : Str) : DBState :=
  if st.content.any (fun cr => cr.1 = hash) then st
  else { st with content := st.content ++ [(hash, doc, now)] }

/-- The documents upsert (store.go lines 307-315): insert a fresh active
row, or on a (collection, path) conflict update title, hash,
modified_at and reset active. -/
def upsertDocument (st : DBState) (colName path title hash now : Str) : DBState :=
  if st.documents.any (fun d => d.collection = colName ∧ d.path = path) then
    { st with documents := st.documents.map (fun d =>
        if d.collection = colName ∧ d.path = path then
          { d with title := title, hash := hash, modifiedAt := now, active := true }
        else d) }
  else
    { st with
      documents := st.documents ++ [⟨st.nextId, colName, path, title, hash, true, now⟩],
      nextId := st.nextId + 1 }

/-- Model of `IndexDocument` (store.go lines 291-321): hash the content,
derive the title, and run the content insert and the documents upsert in
one transaction.  Neither statement can fail logically (OR IGNORE
swallows the duplicate; the upsert resolves the unique conflict), so the
transaction commits and the model is total.  The SHA-256 of
`util.HashContent` is passed in as `hashFn`; theorems assume its
injectivity, which is the collision-resistance the code relies on.
`now` is `time.Now` passed explicitly. -/
def IndexDocument (hashFn : Str → Str) (st : DBState)
    (colName path content now : Str) : DBState :=
  let hash := hashFn content
  let title := ExtractTitle content path
  let st1 := insertOrIgnoreContent st hash content now
  upsertDocument st1 colName path title hash now

/-- Model of `GetDocument` (store.go lines 571-587): join the documents
row for (collection, path) — with no filter on the active flag — to the
content table; `sql.ErrNoRows` from the join becomes the not-found
error. -/
def GetDocument (st : DBState) (collection path : Str) : Except DBErr Str :=
  match st.documents.find? (fun d => d.collection = collection ∧ d.path = path) with
  | none => Except.error DBErr.notFound
  | some d =>
    match st.content.find? (fun cr => cr.1 = d.hash) with
    | none => Except.error DBErr.notFound
    | some cr => Except.ok cr.2.1

/-- Model of `GetPendingEmbeddings` (store.go lines 546-569):
`SELECT DISTINCT d.hash, d.title, c.doc` over documents joined to
content — again with no filter on the active flag — keeping hashes with
no content_vectors row. -/
def GetPendingEmbeddings (st : DBState) : List (Str × Str × Str) :=
  (st.documents.filterMap (fun d =>
      match st.content.find? (fun cr => cr.1 = d.hash) with
      | some cr =>
        if st.contentVectors.any (fun cv => cv.1 = d.hash) then none
        else some (d.hash, d.title, cr.2.1)
      | none => none)).dedup

/-- The distinct hash set of the pending map (its Go `map` keys). -/
def pendingKeys (st : DBState) : List Str :=
  ((GetPendingEmbeddings st).map (·.1)).dedup

/-- Model of `SaveEmbedding` (store.go lines 482-502): inside one
transaction, `INSERT OR IGNORE` the pending marker, then
`INSERT OR REPLACE` the vector; sqlite-vec rejects a vector whose width
differs from the declared dimension, in which case the function returns
the error before committing and the deferred rollback discards the
marker insert. -/
def SaveEmbedding (st : DBState) (hash : Str) (seq : ℤ) (vec : List ℚ) :
    Except DBErr DBState :=
  let st1 :=
    if st.contentVectors.any (fun cv => cv.1 = hash ∧ cv.2 = seq) then st
    else { st with contentVectors := st.contentVectors ++ [(hash, seq)] }
  if vec.length ≠ st.vectorDim then Except.error DBErr.dimensionMismatch
  else Except.ok { st1 with vectors :=
    (st1.vectors.filter (fun v => ¬ v.1 = (hash, seq))) ++ [((hash, seq), vec)] }

/-- The database state visible after a `SaveEmbedding` call: the new
state on commit, the unchanged state on rollback. -/
def runSaveEmbedding (st : DBState) (hash : Str) (seq : ℤ) (vec : List ℚ) : DBState :=
  match SaveEmbedding st hash seq vec with
  | Except.ok st' => st'
  | Except.error _ => st

/-- A fresh store with the vector table declared at dimension `dim`. -/
def emptyStore (dim : ℕ) : DBState := ⟨[], [], 1, [], [], dim⟩

/-- C5: saving a vector whose width disagrees with the declared
dimensionality fails with the dimension-mismatch error, and the visible
store state is unchanged: no pending marker for (hash, seq) is left
behind and no embedding row is inserted. -/
theorem saveEmbedding_c5 :
    ∀ (st : DBState) (hash : Str) (seq : ℤ) (vec : List ℚ),
      vec.length ≠ st.vectorDim →
      SaveEmbedding st hash seq vec = Except.error DBErr.dimensionMismatch ∧
      runSaveEmbedding st hash seq vec = st ∧
      ((hash, seq) ∈ (runSaveEmbedding st hash seq vec).contentVectors ↔
        (hash, seq) ∈ st.contentVectors) ∧
      (runSaveEmbedding st hash seq vec).vectors = st.vectors := by
  intro st hash seq vec h
  have h1 : SaveEmbedding st hash seq vec = Except.error DBErr.dimensionMismatch := by
    unfold SaveEmbedding
    rw [if_pos h]
  have h2 : runSaveEmbedding st hash seq vec = st := by
    unfold runSaveEmbedding
    rw [h1]
  exact ⟨h1, h2, by rw [h2], by rw [h2]⟩

/-- Witness for C5: a 512-wide vector against a 768-dimension table. -/
theorem saveEmbedding_c5_witness :
    SaveEmbedding (emptyStore 768) (['h']) 0 (List.replicate 512 (0 : ℚ)) =
      Except.error DBErr.dimensionMismatch :=
  (saveEmbedding_c5 (emptyStore 768) (['h']) 0 (List.replicate 512 (0 : ℚ))
    (by rw [List.length_replicate]; show (512 : ℕ) ≠ 768; omega)).1

/-- A store state holding one content row and one document row whose
active flag is cleared (the data model's inactive lifecycle state), with
no embeddings. -/
def inactiveDocStore : DBState :=
  ⟨[(['h'], ['x'], [])], [⟨1, ['c'], ['p'], [], ['h'], false, []⟩], 2, [], [], 768⟩

/-- Counterexample to C2 as stated: the pending-embeddings query has no
filter on the active flag, so a hash referenced only by an inactive
document is still returned, while the claim's active-document reading
would return nothing. -/
theorem getPending_c2_counterexample :
    pendingKeys inactiveDocStore = [(['h'] : Str)] ∧
    (∀ d ∈ inactiveDocStore.documents, d.active = false) := by
  refine ⟨by decide, by decide⟩

/-- C2 (amended): `GetPendingEmbeddings` returns exactly the distinct
content hashes that are referenced by any document row — active or not —
and have zero content_vectors rows; in particular, after indexing two
documents with distinct content from an empty store and saving an
embedding for one of them, exactly one entry remains pending. -/
theorem getPending_c2_amended :
    (∀ (st : DBState) (h : Str),
      h ∈ pendingKeys st ↔
        ((∃ d ∈ st.documents, d.hash = h) ∧ (∃ cr ∈ st.content, cr.1 = h) ∧
          ¬ ∃ cv ∈ st.contentVectors, cv.1 = h)) ∧
    (pendingKeys (runSaveEmbedding
        (IndexDocument id
          (IndexDocument id (emptyStore 1) (['c']) (['p']) (['a']) ([]))
          (['c']) (['q']) (['b']) ([]))
        (['a']) 0 [(0 : ℚ)])).length = 1 := by
  constructor
  · intro st h
    constructor
    · intro hmem
      rw [pendingKeys, List.mem_dedup] at hmem
      obtain ⟨a, ha, rfl⟩ := List.mem_map.mp hmem
      rw [GetPendingEmbeddings, List.mem_dedup] at ha
      obtain ⟨d, hd, hfd⟩ := List.mem_filterMap.mp ha
      cases hfind : st.content.find? (fun cr => cr.1 = d.hash) with
      | none =>
        simp only [hfind] at hfd
        cases hfd
      | some cr =>
        simp only [hfind] at hfd
        by_cases hcv : st.contentVectors.any (fun cv => cv.1 = d.hash)
        · rw [if_pos hcv] at hfd; cases hfd
        · rw [if_neg hcv] at hfd
          injection hfd with hfd1
          subst hfd1
          refine ⟨⟨d, hd, rfl⟩, ?_, ?_⟩
          · refine ⟨cr, List.mem_of_find?_eq_some hfind, ?_⟩
            have := List.find?_some hfind
            simpa using this
          · rintro ⟨cv, hcvmem, hcveq⟩
            apply hcv
            rw [List.any_eq_true]
            exact ⟨cv, hcvmem, by simpa using hcveq⟩
    · rintro ⟨⟨d, hd, rfl⟩, ⟨cr, hcr, hcr1⟩, hnocv⟩
      rw [pendingKeys, List.mem_dedup]
      have hfind : (st.content.find? (fun c => c.1 = d.hash)).isSome := by
        rw [List.find?_isSome]
        exact ⟨cr, hcr, by simpa using hcr1⟩
      obtain ⟨cr', hcr'⟩ := Option.isSome_iff_exists.mp hfind
      have hcv : st.contentVectors.any (fun cv => cv.1 = d.hash) = false := by
        rw [Bool.eq_false_iff]
        intro hany
        obtain ⟨cv, hcvmem, hcveq⟩ := List.any_eq_true.mp hany
        exact hnocv ⟨cv, hcvmem, by simpa using hcveq⟩
      refine List.mem_map.mpr ⟨(d.hash, d.title, cr'.2.1), ?_, rfl⟩
      rw [GetPendingEmbeddings, List.mem_dedup]
      refine List.mem_filterMap.mpr ⟨d, hd, ?_⟩
      simp [hcr', hcv]
  · decide

/-- A second copy of the inactive-document state, for the C3 scenario. -/
def inactiveDocStoreC3 : DBState :=
  ⟨[(['h'], ['x'], [])], [⟨1, ['c'], ['p'], [], ['h'], false, []⟩], 2, [], [], 768⟩

/-- Counterexample to C3 as stated: `GetDocument` has no filter on the
active flag, so it returns the content of an inactive mapping instead of
failing with NotFound when no active mapping exists. -/
theorem getDocument_c3_counterexample :
    GetDocument inactiveDocStoreC3 (['c']) (['p']) = Except.ok (['x']) ∧
    ¬ ∃ d ∈ inactiveDocStoreC3.documents,
        d.active ∧ d.collection = ['c'] ∧ d.path = ['p'] := by
  refine ⟨rfl, by decide⟩

/-- C3 (amended): under referential integrity (every document's hash has
a content row — the schema's enforced foreign key), `GetDocument`
returns the joined content text whenever a mapping for
(collection, path) exists, active or not, and fails with NotFound
exactly when no mapping at all exists. -/
theorem getDocument_c3_amended :
    ∀ (st : DBState) (c p : Str),
      (∀ d ∈ st.documents, ∃ cr ∈ st.content, cr.1 = d.hash) →
      ((∃ d ∈ st.documents, d.collection = c ∧ d.path = p) →
        ∃ d ∈ st.documents, d.collection = c ∧ d.path = p ∧
          ∃ cr ∈ st.content, cr.1 = d.hash ∧ GetDocument st c p = Except.ok cr.2.1) ∧
      ((¬ ∃ d ∈ st.documents, d.collection = c ∧ d.path = p) →
        GetDocument st c p = Except.error DBErr.notFound) := by
  intro st c p hFK
  constructor
  · intro hex
    have hfind : (st.documents.find? (fun d => d.collection = c ∧ d.path = p)).isSome := by
      rw [List.find?_isSome]
      obtain ⟨d, hd, hdc, hdp⟩ := hex
      exact ⟨d, hd, by simp [hdc, hdp]⟩
    obtain ⟨d, hd⟩ := Option.isSome_iff_exists.mp hfind
    have hdmem : d ∈ st.documents := List.mem_of_find?_eq_some hd
    have hdp := List.find?_some hd
    simp only [decide_eq_true_eq] at hdp
    obtain ⟨cr, hcrmem, hcr1⟩ := hFK d hdmem
    have hcfind : (st.content.find? (fun x => x.1 = d.hash)).isSome := by
      rw [List.find?_isSome]
      exact ⟨cr, hcrmem, by simp [hcr1]⟩
    obtain ⟨cr', hcr'⟩ := Option.isSome_iff_exists.mp hcfind
    have hcr'1 : cr'.1 = d.hash := by
      have := List.find?_some hcr'
      simpa using this
    refine ⟨d, hdmem, hdp.1, hdp.2, cr', List.mem_of_find?_eq_some hcr', hcr'1, ?_⟩
    simp only [GetDocument, hd, hcr']
  · intro hnone
    have hfind : st.documents.find? (fun d => d.collection = c ∧ d.path = p) = none := by
      rw [List.find?_eq_none]
      intro d hd
      simp only [decide_eq_true_eq]
      rintro ⟨hdc, hdp⟩
      exact hnone ⟨d, hd, hdc, hdp⟩
    simp only [GetDocument, hfind]

/-- Witness for the amended C3 at a concrete store with one mapping. -/
theorem getDocument_c3_witness :
    ∃ d ∈ inactiveDocStoreC3.documents,
      d.collection = ['c'] ∧ d.path = ['p'] ∧
      ∃ cr ∈ inactiveDocStoreC3.content,
        cr.1 = d.hash ∧ GetDocument inactiveDocStoreC3 (['c']) (['p']) = Except.ok cr.2.1 :=
  (getDocument_c3_amended inactiveDocStoreC3 (['c']) (['p']) (by decide)).1 (by decide)

theorem upsertDocument_content (st : DBState) (c p t h now : Str) :
    (upsertDocument st c p t h now).content = st.content := by
  unfold upsertDocument
  split <;> rfl

theorem insertOrIgnoreContent_documents (st : DBState) (h d now : Str) :
    (insertOrIgnoreContent st h d now).documents = st.documents := by
  unfold insertOrIgnoreContent
  split <;> rfl

theorem IndexDocument_content (hashFn : Str → Str) (st : DBState) (c p text now : Str) :
    (IndexDocument hashFn st c p text now).content =
      if st.content.any (fun cr => cr.1 = hashFn text) then st.content
      else st.content ++ [(hashFn text, text, now)] := by
  unfold IndexDocument
  rw [upsertDocument_content]
  unfold insertOrIgnoreContent
  split <;> rfl

theorem IndexDocument_mem_self (hashFn : Str → Str) (st : DBState) (c p text now : Str) :
    hashFn text ∈ (IndexDocument hashFn st c p text now).content.map (·.1) := by
  rw [IndexDocument_content]
  by_cases hc : st.content.any (fun cr => cr.1 = hashFn text)
  · rw [if_pos hc]
    obtain ⟨cr, hcr, heq⟩ := List.any_eq_true.mp hc
    simp only [decide_eq_true_eq] at heq
    exact List.mem_map.mpr ⟨cr, hcr, heq⟩
  · rw [if_neg hc, List.map_append]
    exact List.mem_append_right _ (by simp)

theorem IndexDocument_content_mem (hashFn : Str → Str) (st : DBState) (c p text now : Str)
    (k : Str) (hk : k ∈ st.content.map (·.1)) :
    k ∈ (IndexDocument hashFn st c p text now).content.map (·.1) := by
  rw [IndexDocument_content]
  by_cases hc : st.content.any (fun cr => cr.1 = hashFn text)
  · rw [if_pos hc]; exact hk
  · rw [if_neg hc, List.map_append]
    exact List.mem_append_left _ hk

theorem IndexDocument_hashCorrect (hashFn : Str → Str) (st : DBState) (c p text now : Str)
    (hwf : ∀ cr ∈ st.content, cr.1 = hashFn cr.2.1) :
    ∀ cr ∈ (IndexDocument hashFn st c p text now).content, cr.1 = hashFn cr.2.1 := by
  rw [IndexDocument_content]
  by_cases hc : st.content.any (fun cr => cr.1 = hashFn text)
  · rw [if_pos hc]; exact hwf
  · rw [if_neg hc]
    intro cr hcr
    rcases List.mem_append.mp hcr with h1 | h1
    · exact hwf cr h1
    · rw [List.mem_singleton.mp h1]

theorem IndexDocument_keys_nodup (hashFn : Str → Str) (st : DBState) (c p text now : Str)
    (hnd : (st.content.map (·.1)).Nodup) :
    ((IndexDocument hashFn st c p text now).content.map (·.1)).Nodup := by
  rw [IndexDocument_content]
  by_cases hc : st.content.any (fun cr => cr.1 = hashFn text)
  · rw [if_pos hc]; exact hnd
  · rw [if_neg hc, List.map_append]
    refine List.Nodup.append hnd (by simp) ?_
    intro k hk hk'
    simp only [List.map_cons, List.map_nil, List.mem_singleton] at hk'
    subst hk'
    obtain ⟨cr, hcr, heq⟩ := List.mem_map.mp hk
    exact hc (List.any_eq_true.mpr ⟨cr, hcr, by simp [heq]⟩)

theorem countP_text_eq_one (hashFn : Str → Str) (hinj : Function.Injective hashFn)
    (text : Str) :
    ∀ content : List (Str × Str × Str),
      (∀ cr ∈ content, cr.1 = hashFn cr.2.1) → (content.map (·.1)).Nodup →
      hashFn text ∈ content.map (·.1) →
      content.countP (fun cr => cr.2.1 = text) = 1 := by
  intro content
  induction content with
  | nil => intro _ _ hmem; cases hmem
  | cons cr rest ih =>
    intro hwf hnd hmem
    have hcr1 : cr.1 = hashFn cr.2.1 := hwf cr (List.mem_cons_self _ _)
    have hnotin : cr.1 ∉ rest.map (·.1) := (List.nodup_cons.mp hnd).1
    have hndrest : (rest.map (·.1)).Nodup := (List.nodup_cons.mp hnd).2
    by_cases hh : hashFn text = cr.1
    · have htext : cr.2.1 = text := by
        apply hinj
        rw [← hcr1, hh]
      rw [List.countP_cons, if_pos (by simp [htext])]
      have hz : rest.countP (fun cr => cr.2.1 = text) = 0 := by
        rw [List.countP_eq_zero]
        intro cr' hcr' hpred
        simp only [decide_eq_true_eq] at hpred
        have : cr'.1 = hashFn text := by
          rw [hwf cr' (List.mem_cons_of_mem _ hcr'), hpred]
        apply hnotin
        rw [← hh, ← this]
        exact List.mem_map_of_mem (·.1) hcr'
      rw [hz]
    · have hpred : ¬ cr.2.1 = text := by
        intro h
        exact hh (by rw [← h, ← hcr1])
      rw [List.countP_cons, if_neg (by simp [hpred])]
      have hmem' : hashFn text ∈ rest.map (·.1) := by
        rw [List.map_cons] at hmem
        rcases List.mem_cons.mp hmem with h1 | h1
        · exact absurd h1 hh
        · exact h1
      rw [ih (fun c hc => hwf c (List.mem_cons_of_mem _ hc)) hndrest hmem']

/-- A document row for (collection, path) referencing hash `h`. -/
def HasDocRow (st : DBState) (c p h : Str) : Prop :=
  ∃ d ∈ st.documents, d.collection = c ∧ d.path = p ∧ d.hash = h

theorem upsert_establishes (st : DBState) (c p t h now : Str) :
    HasDocRow (upsertDocument st c p t h now) c p h := by
  unfold upsertDocument
  by_cases hex : st.documents.any (fun d => d.collection = c ∧ d.path = p)
  · rw [if_pos hex]
    obtain ⟨d, hd, hpred⟩ := List.any_eq_true.mp hex
    simp only [decide_eq_true_eq] at hpred
    refine ⟨{ d with title := t, hash := h, modifiedAt := now, active := true }, ?_,
      hpred.1, hpred.2, rfl⟩
    refine List.mem_map.mpr ⟨d, hd, ?_⟩
    rw [if_pos hpred]
  · rw [if_neg hex]
    exact ⟨⟨st.nextId, c, p, t, h, true, now⟩,
      List.mem_append_right _ (by simp), rfl, rfl, rfl⟩

theorem upsert_preserves (st : DBState) (c p h c' p' t' now' : Str)
    (hprev : HasDocRow st c p h) :
    HasDocRow (upsertDocument st c' p' t' h now') c p h := by
  obtain ⟨d, hd, hdc, hdp, hdh⟩ := hprev
  unfold upsertDocument
  by_cases hex : st.documents.any (fun d => d.collection = c' ∧ d.path = p')
  · rw [if_pos hex]
    by_cases hpred : d.collection = c' ∧ d.path = p'
    · refine ⟨{ d with title := t', hash := h, modifiedAt := now', active := true }, ?_,
        hdc, hdp, rfl⟩
      refine List.mem_map.mpr ⟨d, hd, ?_⟩
      rw [if_pos hpred]
    · refine ⟨d, ?_, hdc, hdp, hdh⟩
      refine List.mem_map.mpr ⟨d, hd, ?_⟩
      rw [if_neg hpred]
  · rw [if_neg hex]
    exact ⟨d, List.mem_append_left _ hd, hdc, hdp, hdh⟩

theorem IndexDocument_establishes (hashFn : Str → Str) (st : DBState) (c p text now : Str) :
    HasDocRow (IndexDocument hashFn st c p text now) c p (hashFn text) := by
  unfold IndexDocument
  exact upsert_establishes _ _ _ _ _ _

theorem IndexDocument_preserves (hashFn : Str → Str) (st : DBState)
    (c p c' p' text now : Str) (hprev : HasDocRow st c p (hashFn text)) :
    HasDocRow (IndexDocument hashFn st c' p' text now) c p (hashFn text) := by
  unfold IndexDocument
  apply upsert_preserves
  obtain ⟨d, hd, h1, h2, h3⟩ := hprev
  exact ⟨d, by rw [insertOrIgnoreContent_documents]; exact hd, h1, h2, h3⟩

theorem fold_preserves_docRow (hashFn : Str → Str) (text now : Str) (c p : Str) :
    ∀ (calls : List (Str × Str)) (st : DBState), HasDocRow st c p (hashFn text) →
      HasDocRow (calls.foldl (fun s cp => IndexDocument hashFn s cp.1 cp.2 text now) st)
        c p (hashFn text) := by
  intro calls
  induction calls with
  | nil => intro st h; exact h
  | cons q rest ih =>
    intro st h
    exact ih _ (IndexDocument_preserves hashFn st c p q.1 q.2 text now h)

theorem fold_wf (hashFn : Str → Str) (text now : Str) :
    ∀ (calls : List (Str × Str)) (st : DBState),
      (∀ cr ∈ st.content, cr.1 = hashFn cr.2.1) → (st.content.map (·.1)).Nodup →
      (∀ cr ∈ (calls.foldl (fun s cp => IndexDocument hashFn s cp.1 cp.2 text now) st).content,
        cr.1 = hashFn cr.2.1) ∧
      (((calls.foldl (fun s cp => IndexDocument hashFn s cp.1 cp.2 text now) st).content.map
        (·.1)).Nodup) := by
  intro calls
  induction calls with
  | nil => intro st h1 h2; exact ⟨h1, h2⟩
  | cons q rest ih =>
    intro st h1 h2
    exact ih _ (IndexDocument_hashCorrect hashFn st q.1 q.2 text now h1)
      (IndexDocument_keys_nodup hashFn st q.1 q.2 text now h2)

theorem fold_content_mem (hashFn : Str → Str) (text now : Str) :
    ∀ (calls : List (Str × Str)) (st : DBState),
      hashFn text ∈ st.content.map (·.1) →
      hashFn text ∈ (calls.foldl (fun s cp => IndexDocument hashFn s cp.1 cp.2 text now)
        st).content.map (·.1) := by
  intro calls
  induction calls with
  | nil => intro st h; exact h
  | cons q rest ih =>
    intro st h
    exact ih _ (IndexDocument_content_mem hashFn st q.1 q.2 text now _ h)

theorem fold_docRow (hashFn : Str → Str) (text now : Str) :
    ∀ (calls : List (Str × Str)) (st : DBState) (cp : Str × Str), cp ∈ calls →
      HasDocRow (calls.foldl (fun s cp => IndexDocument hashFn s cp.1 cp.2 text now) st)
        cp.1 cp.2 (hashFn text) := by
  intro calls
  induction calls with
  | nil => intro st cp h; cases h
  | cons q rest ih =>
    intro st cp hcp
    rcases List.mem_cons.mp hcp with rfl | h1
    · rw [List.foldl_cons]
      exact fold_preserves_docRow hashFn text now cp.1 cp.2 rest _
        (IndexDocument_establishes hashFn st cp.1 cp.2 text now)
    · rw [List.foldl_cons]
      exact ih _ cp h1

/-- C8: storage is keyed by the content hash and idempotent — indexing
the same text any number of times, under any distinct or repeated
(collection, path) identities, leaves exactly one content row holding
that text, every resulting document row references its hash, and
re-inserting the duplicate content is a no-op rather than an error
(INSERT OR IGNORE).  The injectivity hypothesis is the
collision-resistance of SHA-256 that the content-addressed scheme relies
on; the well-formedness hypotheses say that existing content rows are
keyed by their own hash, which indexing itself maintains. -/
theorem indexDocument_c8 :
    ∀ (hashFn : Str → Str), Function.Injective hashFn →
    ∀ (st : DBState),
      (∀ cr ∈ st.content, cr.1 = hashFn cr.2.1) →
      (st.content.map (·.1)).Nodup →
    ∀ (text now : Str) (calls : List (Str × Str)), calls ≠ [] →
      ((calls.foldl (fun s cp => IndexDocument hashFn s cp.1 cp.2 text now) st).content.countP
          (fun cr => cr.2.1 = text) = 1) ∧
      (∀ cp ∈ calls,
        ∃ d ∈ (calls.foldl (fun s cp => IndexDocument hashFn s cp.1 cp.2 text now)
            st).documents,
          d.collection = cp.1 ∧ d.path = cp.2 ∧ d.hash = hashFn text) ∧
      (insertOrIgnoreContent
          (calls.foldl (fun s cp => IndexDocument hashFn s cp.1 cp.2 text now) st)
          (hashFn text) text now =
        calls.foldl (fun s cp => IndexDocument hashFn s cp.1 cp.2 text now) st) := by
  intro hashFn hinj st hwf hnd text now calls hne
  have hmem : hashFn text ∈
      (calls.foldl (fun s cp => IndexDocument hashFn s cp.1 cp.2 text now)
        st).content.map (·.1) := by
    cases calls with
    | nil => exact absurd rfl hne
    | cons q rest =>
      rw [List.foldl_cons]
      exact fold_content_mem hashFn text now rest _
        (IndexDocument_mem_self hashFn st q.1 q.2 text now)
  have hwf' := fold_wf hashFn text now calls st hwf hnd
  refine ⟨countP_text_eq_one hashFn hinj text _ hwf'.1 hwf'.2 hmem, ?_, ?_⟩
  · intro cp hcp
    exact fold_docRow hashFn text now calls st cp hcp
  · unfold insertOrIgnoreContent
    rw [if_pos]
    obtain ⟨cr, hcr, heq⟩ := List.mem_map.mp hmem
    exact List.any_eq_true.mpr ⟨cr, hcr, by simp [heq]⟩

/-- Witness for C8: two identities indexed with the same text from an
empty store leave exactly one content row for the text. -/
theorem indexDocument_c8_witness :
    (([((['a'] : Str), (['b'] : Str)), (['a'], ['d'])].foldl
        (fun s cp => IndexDocument id s cp.1 cp.2 (['t']) ([])) (emptyStore 1)).content.countP
      (fun cr => cr.2.1 = ['t'])) = 1 :=
  (indexDocument_c8 id (fun a b h => h) (emptyStore 1) (by decide) (by decide) (['t']) ([])
    [((['a'] : Str), ['b']), (['a'], ['d'])] (by decide)).1

/-- Model of `SearchHybrid` (store.go lines 627-654), parameterised over
the two underlying searches (in the source, `s.SearchFTS` and
`s.SearchVec`, whose failures come from the database engine): fetch
`limit * 2` candidates from each source — the FTS call with one context
line and `findAll = false` — propagate either error (wrapped with a
source prefix), fuse with RRF, and truncate to `limit`. -/
def SearchHybrid
    (fts : Str → ℕ → ℕ → Bool → Except Str (List SearchResult))
    (vec : List ℚ → ℕ → Except Str (List SearchResult))
    (textQuery : Str) (queryVec : List ℚ) (limit : ℕ) :
    Except Str (List SearchResult) :=
  match fts textQuery (limit * 2) 1 false with
  | Except.error e => Except.error (("FTS search failed: ".toList) ++ e)
  | Except.ok ftsResults =>
    match vec queryVec (limit * 2) with
    | Except.error e => Except.error (("vector search failed: ".toList) ++ e)
    | Except.ok vecResults =>
      Except.ok
        (if limit < (ReciprocalRankFusion [ftsResults, vecResults]).length then
          (ReciprocalRankFusion [ftsResults, vecResults]).take limit
        else ReciprocalRankFusion [ftsResults, vecResults])

/-- C4: SearchHybrid requests `2 × limit` candidates from the lexical
search and `2 × limit` from the vector search, fuses the two lists with
RRF truncated to at most `limit` results, and errors whenever either
underlying search errors — it never silently returns only the surviving
source's results. -/
theorem searchHybrid_c4 :
    ∀ (fts : Str → ℕ → ℕ → Bool → Except Str (List SearchResult))
      (vec : List ℚ → ℕ → Except Str (List SearchResult))
      (q : Str) (v : List ℚ) (limit : ℕ),
      ((∃ e, fts q (limit * 2) 1 false = Except.error e) →
        ∃ e', SearchHybrid fts vec q v limit = Except.error e') ∧
      ((∃ e, vec v (limit * 2) = Except.error e) →
        ∃ e', SearchHybrid fts vec q v limit = Except.error e') ∧
      (∀ fr vr, fts q (limit * 2) 1 false = Except.ok fr →
        vec v (limit * 2) = Except.ok vr →
        SearchHybrid fts vec q v limit =
          Except.ok ((ReciprocalRankFusion [fr, vr]).take limit)) ∧
      (∀ res, SearchHybrid fts vec q v limit = Except.ok res → res.length ≤ limit) := by
  intro fts vec q v limit
  refine ⟨?_, ?_, ?_, ?_⟩
  · rintro ⟨e, he⟩
    refine ⟨("FTS search failed: ".toList) ++ e, ?_⟩
    simp only [SearchHybrid, he]
  · rintro ⟨e, he⟩
    cases hf : fts q (limit * 2) 1 false with
    | error e' =>
      refine ⟨("FTS search failed: ".toList) ++ e', ?_⟩
      simp only [SearchHybrid, hf]
    | ok fr =>
      refine ⟨("vector search failed: ".toList) ++ e, ?_⟩
      simp only [SearchHybrid, hf, he]
  · intro fr vr hf hv
    simp only [SearchHybrid, hf, hv]
    by_cases hl : limit < (ReciprocalRankFusion [fr, vr]).length
    · rw [if_pos hl]
    · rw [if_neg hl]
      rw [List.take_of_length_le (by omega)]
  · intro res hres
    cases hf : fts q (limit * 2) 1 false with
    | error e =>
      simp only [SearchHybrid, hf] at hres
      cases hres
    | ok fr =>
      cases hv : vec v (limit * 2) with
      | error e =>
        simp only [SearchHybrid, hf, hv] at hres
        cases hres
      | ok vr =>
        simp only [SearchHybrid, hf, hv] at hres
        by_cases hl : limit < (ReciprocalRankFusion [fr, vr]).length
        · rw [if_pos hl] at hres
          cases hres
          simp
        · rw [if_neg hl] at hres
          cases hres
          omega

/-- Witness for C4: a failing lexical source makes the whole hybrid
call fail. -/
theorem searchHybrid_c4_witness :
    ∃ e', SearchHybrid (fun _ _ _ _ => Except.error ['x'])
        (fun _ _ => Except.ok []) (['q']) [(0 : ℚ)] 5 = Except.error e' :=
  (searchHybrid_c4 (fun _ _ _ _ => Except.error ['x']) (fun _ _ => Except.ok [])
    (['q']) [(0 : ℚ)] 5).1 ⟨['x'], rfl⟩
